import Mathlib

set_option maxRecDepth 10000

/-!
Verification of the elastic-agent configuration transpiler AST
(internal/pkg/agent/transpiler/ast.go) against its specification.

The Go source is shallowly embedded: the polymorphic Node interface with its
variants (Dict, Key, List, StrVal, IntVal, UIntVal, FloatVal, BoolVal) becomes
an inductive type; Go nil Node interface values become an explicit null
constructor (they can occur as List elements); machine integers are modelled
with Int and Nat (hashing only uses their decimal string forms); byte slices
are List Nat with entries below 256.

Strings: Go compares and splits strings byte-wise over UTF-8.  For valid
UTF-8, byte-wise lexicographic order coincides with code-point lexicographic
order, and splitting on the one-byte separator "." coincides with splitting
the code-point sequence on the character '.'.  We therefore implement the
string operations over String.data (the code-point list), which the kernel
can evaluate, and produce UTF-8 bytes with an explicit encoder for hashing.
-/

/-- Splits a character list on a separator character, keeping empty segments,
mirroring Go strings.Split (which never returns an empty slice). -/
def chSplit (sep : Char) : List Char → List (List Char)
  | [] => [[]]
  | c :: cs =>
    let r := chSplit sep cs
    if c = sep then [] :: r
    else
      match r with
      | [] => [[c]]
      | g :: gs => (c :: g) :: gs

/-- Go strings.Split(s, ".") for a non-empty separator: split on the dot. -/
def splitDots (s : String) : List String :=
  (chSplit '.' s.data).map List.asString

/-- Byte-wise (equivalently code-point-wise) lexicographic less-or-equal,
the order used by Go string comparison. -/
def chLe : List Char → List Char → Bool
  | [], _ => true
  | _ :: _, [] => false
  | a :: as, b :: bs =>
    if a.val.toNat < b.val.toNat then true
    else if b.val.toNat < a.val.toNat then false
    else chLe as bs

/-- Go string less-or-equal (total order used by sort.Strings and Dict.sort). -/
def strLe (a b : String) : Bool := chLe a.data b.data

/-- Strict Go string order: a < b. -/
def strLt (a b : String) : Bool := strLe a b && !(a = b)

/-- UTF-8 encoding of one code point. -/
def utf8Char (n : Nat) : List Nat :=
  if n < 0x80 then [n]
  else if n < 0x800 then [0xC0 + n / 64, 0x80 + n % 64]
  else if n < 0x10000 then [0xE0 + n / 4096, 0x80 + (n / 64) % 64, 0x80 + n % 64]
  else [0xF0 + n / 262144, 0x80 + (n / 4096) % 64, 0x80 + (n / 64) % 64, 0x80 + n % 64]

/-- The UTF-8 bytes of a string, as Go []byte(s). -/
def strBytes (s : String) : List Nat := s.data.flatMap (fun c => utf8Char c.val.toNat)

/-! ## SHA-256

A complete executable SHA-256 over byte lists, used by the strong hash
(crypto/sha256 in the source).  Words are Nat values below 2^32. -/

def w32 : Nat := 4294967296

def rotr32 (n x : Nat) : Nat := ((x >>> n) ||| (x <<< (32 - n))) % w32

def shaCh (e f g : Nat) : Nat := (e &&& f) ^^^ ((e ^^^ (w32 - 1)) &&& g)

def shaMaj (a b c : Nat) : Nat := (a &&& b) ^^^ (a &&& c) ^^^ (b &&& c)

def bigSigma0 (x : Nat) : Nat := (rotr32 2 x) ^^^ (rotr32 13 x) ^^^ (rotr32 22 x)

def bigSigma1 (x : Nat) : Nat := (rotr32 6 x) ^^^ (rotr32 11 x) ^^^ (rotr32 25 x)

def smallSigma0 (x : Nat) : Nat := (rotr32 7 x) ^^^ (rotr32 18 x) ^^^ (x >>> 3)

def smallSigma1 (x : Nat) : Nat := (rotr32 17 x) ^^^ (rotr32 19 x) ^^^ (x >>> 10)

/-- The 64 SHA-256 round constants, written in decimal. -/
def shaK : List Nat :=
  [1116352408, 1899447441, 3049323471, 3921009573, 961987163, 1508970993,
   2453635748, 2870763221, 3624381080, 310598401, 607225278, 1426881987,
   1925078388, 2162078206, 2614888103, 3248222580, 3835390401, 4022224774,
   264347078, 604807628, 770255983, 1249150122, 1555081692, 1996064986,
   2554220882, 2821834349, 2952996808, 3210313671, 3336571891, 3584528711,
   113926993, 338241895, 666307205, 773529912, 1294757372, 1396182291,
   1695183700, 1986661051, 2177026350, 2456956037, 2730485921, 2820302411,
   3259730800, 3345764771, 3516065817, 3600352804, 4094571909, 275423344,
   430227734, 506948616, 659060556, 883997877, 958139571, 1322822218,
   1537002063, 1747873779, 1955562222, 2024104815, 2227730452, 2361852424,
   2428436474, 2756734187, 3204031479, 3329325298]

/-- The initial SHA-256 state, written in decimal. -/
def shaH0 : List Nat :=
  [1779033703,
   3144134277,
   1013904242,
   2773480762,
   1359893119,
   2600822924,
   528734635,
   1541459225]

/-- Big-endian bytes of a 64-bit value. -/
def be64 (n : Nat) : List Nat :=
  [(n >>> 56) % 256, (n >>> 48) % 256, (n >>> 40) % 256, (n >>> 32) % 256,
   (n >>> 24) % 256, (n >>> 16) % 256, (n >>> 8) % 256, n % 256]

/-- Big-endian bytes of a 32-bit word. -/
def be32 (n : Nat) : List Nat :=
  [(n >>> 24) % 256, (n >>> 16) % 256, (n >>> 8) % 256, n % 256]

/-- SHA-256 padding: append 0x80, zeros to 56 mod 64, then the bit length. -/
def shaPad (msg : List Nat) : List Nat :=
  msg ++ [0x80] ++ List.replicate ((64 - ((msg.length + 9) % 64)) % 64) 0 ++ be64 (8 * msg.length)

/-- Group bytes into big-endian 32-bit words (the input length is a multiple of 4). -/
def bytesToWords : List Nat → List Nat
  | a :: b :: c :: d :: rest => (a * 16777216 + b * 65536 + c * 256 + d) :: bytesToWords rest
  | _ => []

/-- Group words into 16-word blocks (the input length is a multiple of 16). -/
def wordsToBlocks : List Nat → List (List Nat)
  | w0 :: w1 :: w2 :: w3 :: w4 :: w5 :: w6 :: w7 ::
    w8 :: w9 :: w10 :: w11 :: w12 :: w13 :: w14 :: w15 :: rest =>
      [w0, w1, w2, w3, w4, w5, w6, w7, w8, w9, w10, w11, w12, w13, w14, w15] ::
        wordsToBlocks rest
  | _ => []

/-- Extends the schedule: acc holds the words most recent first; n more to add. -/
def shaSched : Nat → List Nat → List Nat
  | 0, acc => acc.reverse
  | n + 1, acc =>
    let nw := (smallSigma1 (acc.getD 1 0) + acc.getD 6 0 +
               smallSigma0 (acc.getD 14 0) + acc.getD 15 0) % w32
    shaSched n (nw :: acc)

/-- One compression round; the state is the eight working variables. -/
def shaRound (st : List Nat) (kw : Nat × Nat) : List Nat :=
  match st with
  | [a, b, c, d, e, f, g, h] =>
    let t1 := (h + bigSigma1 e + shaCh e f g + kw.1 + kw.2) % w32
    let t2 := (bigSigma0 a + shaMaj a b c) % w32
    [(t1 + t2) % w32, a, b, c, (d + t1) % w32, e, f, g]
  | _ => st

/-- Process one 16-word block, updating the eight-word hash state. -/
def shaBlock (hs : List Nat) (blk : List Nat) : List Nat :=
  let w := shaSched 48 blk.reverse
  let st := (shaK.zip w).foldl shaRound hs
  (hs.zip st).map (fun p => (p.1 + p.2) % w32)

/-- SHA-256 of a byte list, as a 32-byte list. -/
def sha256 (msg : List Nat) : List Nat :=
  ((wordsToBlocks (bytesToWords (shaPad msg))).foldl shaBlock shaH0).flatMap be32

/-! ## The Node data model

Mirrors the Go Node interface and its implementations Dict, Key, List,
StrVal, IntVal, UIntVal, FloatVal, BoolVal.  The processors field is
Go []map[string]interface.  Its maps are never inspected by this package,
only compared against nil and passed through, so each opaque map is
represented by a Nat token; a nil slice is none, a non-nil slice some.
The condition field of Key memoizes the compiled eql expression; the
compiler is external (an opaque interface per the spec), so a compiled
expression is represented by an opaque String token.  FloatVal holds a
float64 used only through its canonical decimal form (strconv.FormatFloat
with precision -1), so the payload is represented by that form.
A Go nil Node interface value (possible as a List element after loading a
nil native element) is the explicit null constructor. -/

abbrev Procs := Option (List Nat)

inductive Node where
  | dict (value : List Node) (processors : Procs)
  | list (value : List Node) (processors : Procs)
  | key (name : String) (value : Option Node) (condition : Option String)
  | strV (value : String) (processors : Procs)
  | intV (value : Int) (processors : Procs)
  | uintV (value : Nat) (processors : Procs)
  | floatV (value : String) (processors : Procs)
  | boolV (value : Bool) (processors : Procs)
  | null

/-- The name of a Key node.  Go code reaching this on another variant does an
i.(*Key) type assertion and panics; callers below guard with wfN. -/
def keyName : Node → String
  | .key nm _ _ => nm
  | _ => ""

/-- Dict.Find: scan children for the Key with the given name (first match). -/
def findIn (ch : List Node) (k : String) : Option Node :=
  match ch with
  | [] => none
  | c :: cs => if keyName c = k then some c else findIn cs k

/-- Digit-string value; none when a non-digit occurs. -/
def digAux : List Char → Nat → Option Nat
  | [], acc => some acc
  | c :: cs, acc =>
    if '0' ≤ c ∧ c ≤ '9' then digAux cs (acc * 10 + (c.val.toNat - 48)) else none

/-- Go strconv.Atoi on the strings used as List selectors: optional sign then
decimal digits (range overflow is ignored; selector indices are small). -/
def atoi (s : String) : Option Int :=
  match s.data with
  | [] => none
  | '+' :: ds => match ds with
      | [] => none
      | _ => (digAux ds 0).map Int.ofNat
  | '-' :: ds => match ds with
      | [] => none
      | _ => (digAux ds 0).map (fun n => -(n : Int))
  | ds => (digAux ds 0).map Int.ofNat

/-- List.Find: parse the selector as an index and return the element. -/
def listIdx (ch : List Node) (k : String) : Option Node :=
  match atoi k with
  | none => none
  | some i => if 0 ≤ i ∧ i < (ch.length : Int) then ch.get? i.toNat else none

/-- Node.Find, by variant as in the source: Dict scans keys; Key delegates to
its Dict or List value; List indexes; scalars and nil find nothing. -/
def findN : Node → String → Option Node
  | .dict ch _, k => findIn ch k
  | .key _ v _, k =>
    match v with
    | some (.dict ch _) => findIn ch k
    | some (.list ch _) => listIdx ch k
    | _ => none
  | .list ch _, k => listIdx ch k
  | _, _ => none

/-! ## Hashing

hashN is Node.Hash (strong, SHA-256): scalars yield their canonical bytes,
a Key digests its name followed by the hash of its value, Dict and List
digest the concatenation of their children's hashes.  feed64 is the byte
stream written into the single xxhash digest by Node.Hash64With; the fast
hash is a pure function of this stream.  A Go nil child makes the source
panic in both; the result is none in that case. -/

mutual
def hashN : Node → Option (List Nat)
  | .dict ch _ => (hashConcat ch).map sha256
  | .list ch _ => (hashConcat ch).map sha256
  | .key nm v _ =>
    match v with
    | none => some (sha256 (strBytes nm))
    | some x => (hashN x).map (fun hx => sha256 (strBytes nm ++ hx))
  | .strV s _ => some (strBytes s)
  | .intV i _ => some (strBytes (toString i))
  | .uintV u _ => some (strBytes (toString u))
  | .floatV f _ => some (strBytes f)
  | .boolV b _ => some (if b then [1] else [0])
  | .null => none
def hashConcat : List Node → Option (List Nat)
  | [] => some []
  | c :: cs =>
    match hashN c, hashConcat cs with
    | some h, some t => some (h ++ t)
    | _, _ => none
end

mutual
def feed64 : Node → Option (List Nat)
  | .dict ch _ => feedConcat ch
  | .list ch _ => feedConcat ch
  | .key nm v _ =>
    match v with
    | none => some (strBytes nm)
    | some x => (feed64 x).map (fun fx => strBytes nm ++ fx)
  | .strV s _ => some (strBytes s)
  | .intV i _ => some (strBytes (toString i))
  | .uintV u _ => some (strBytes (toString u))
  | .floatV f _ => some (strBytes f)
  | .boolV b _ => some (if b then [1] else [0])
  | .null => none
def feedConcat : List Node → Option (List Nat)
  | [] => some []
  | c :: cs =>
    match feed64 c, feedConcat cs with
    | some h, some t => some (h ++ t)
    | _, _ => none
end

/-! ## Clone and ShallowClone

Dict.Clone and List.Clone skip nil children, deep-clone the rest and drop
the processors field; Key.Clone drops the memoized condition; scalar Clone
copies the whole struct including processors.  Dict.ShallowClone shallow-
clones each child (for Key children this copies name and shares the value,
dropping the condition); List.ShallowClone shares the children; scalar
ShallowClone delegates to Clone. -/

mutual
def cloneN : Node → Node
  | .dict ch _ => .dict (cloneList ch) none
  | .list ch _ => .list (cloneList ch) none
  | .key nm v _ =>
    match v with
    | some x => .key nm (some (cloneN x)) none
    | none => .key nm none none
  | .strV s p => .strV s p
  | .intV i p => .intV i p
  | .uintV u p => .uintV u p
  | .floatV f p => .floatV f p
  | .boolV b p => .boolV b p
  | .null => .null
def cloneList : List Node → List Node
  | [] => []
  | .null :: cs => cloneList cs
  | c :: cs => cloneN c :: cloneList cs
end

/-- Nodes of a list with the Go nil elements skipped (List.ShallowClone). -/
def keepNonNull : List Node → List Node
  | [] => []
  | .null :: cs => keepNonNull cs
  | c :: cs => c :: keepNonNull cs

mutual
def shallowCloneN : Node → Node
  | .dict ch _ => .dict (shallowCloneList ch) none
  | .list ch _ => .list (keepNonNull ch) none
  | .key nm v _ => .key nm v none
  | .strV s p => .strV s p
  | .intV i p => .intV i p
  | .uintV u p => .uintV u p
  | .floatV f p => .floatV f p
  | .boolV b p => .boolV b p
  | .null => .null
def shallowCloneList : List Node → List Node
  | [] => []
  | .null :: cs => shallowCloneList cs
  | c :: cs => shallowCloneN c :: shallowCloneList cs
end

/-! ## Processors query -/

mutual
def processorsN : Node → Procs
  | .dict ch p =>
    match p with
    | some q => some q
    | none => firstProcs ch
  | .list ch p =>
    match p with
    | some q => some q
    | none => firstProcs ch
  | .key _ v _ =>
    match v with
    | some x => processorsN x
    | none => none
  | .strV _ p => p
  | .intV _ p => p
  | .uintV _ p => p
  | .floatV _ p => p
  | .boolV _ p => p
  | .null => none
def firstProcs : List Node → Procs
  | [] => none
  | c :: cs =>
    match processorsN c with
    | some p => some p
    | none => firstProcs cs
end


/-! ## Sorting of Dict children

Dict.sort sorts children by Key name via sort.Slice with the strict order
name_i < name_j; the result is nondecreasing by name.  sort.Slice is not
stable, so on duplicate names the source's order is implementation-defined;
this model uses a stable insertion sort, which agrees with the source
whenever names are unique (the data-model invariant). -/

def insBy {a : Type} (f : a → String) (x : a) : List a → List a
  | [] => [x]
  | y :: ys => if strLe (f x) (f y) then x :: y :: ys else y :: insBy f x ys

/-- Stable insertion sort of a list by a string key. -/
def sortBy {a : Type} (f : a → String) : List a → List a
  | [] => []
  | x :: xs => insBy f x (sortBy f xs)

/-- Dict.sort: sort children by Key name. -/
def sortD (ch : List Node) : List Node := sortBy keyName ch

/-- sort.Strings used by the loader on map keys (ascending; keys of a native
map are unique, so stability is irrelevant). -/
def sortStrs (l : List String) : List String := sortBy (fun s => s) l

/-! ## Insert

Insert walks the selector path from the root, descending through found
children and creating empty intermediate nodes where the walk fails
(appending a fresh Key with empty Dict value to a Dict, re-sorting it, or
appending a fresh empty Dict to a List), then deposits the node at the
terminal Key.  The source mutates in place through pointers; this model
rebuilds the tree.  Where the source appends the fresh empty node and sorts
the Dict before continuing the walk, the model recurses first and sorts the
final child into place afterwards: the recursion preserves the child's name
and the sort permutes by names alone, so the resulting list is identical. -/

/-- Replace the first child whose Key name matches (the child Node.Find
would have returned) with the given node. -/
def replaceFirstNamed (ch : List Node) (k : String) (n : Node) : List Node :=
  match ch with
  | [] => []
  | c :: cs => if keyName c = k then n :: cs else c :: replaceFirstNamed cs k n

/-- Replace the list element addressed by a numeric selector. -/
def listSetIdx (ch : List Node) (k : String) (n : Node) : List Node :=
  match atoi k with
  | some i => if 0 ≤ i ∧ i < (ch.length : Int) then ch.set i.toNat n else ch
  | none => ch

/-- Writes a new node at the position Node.Find resolves the selector
component to, mirroring the source's in-place mutation of the found child. -/
def setFound : Node → String → Node → Node
  | .dict ch p, k, n => .dict (replaceFirstNamed ch k n) p
  | .key nm v c, k, n =>
    match v with
    | some (.dict ch p) => .key nm (some (.dict (replaceFirstNamed ch k n) p)) c
    | some (.list ch p) => .key nm (some (.list (listSetIdx ch k n) p)) c
    | _ => .key nm v c
  | .list ch p, k, n => .list (listSetIdx ch k n) p
  | x, _, _ => x

/-- First index holding a Key named nm (the comma-ok cast in the duplicate
scan of Insert skips non-Key children without panicking). -/
def findIdxNamed : List Node → String → Option Nat
  | [], _ => none
  | .key n _ _ :: cs, nm =>
    if n = nm then some 0 else (findIdxNamed cs nm).map (· + 1)
  | _ :: cs, nm => (findIdxNamed cs nm).map (· + 1)

/-- The duplicate-removal idiom of Insert: overwrite the matching slot with
the last element and truncate. -/
def swapRemoveNamed (ch : List Node) (nm : String) : List Node :=
  match findIdxNamed ch nm with
  | none => ch
  | some i =>
    match ch.getLast? with
    | some last => (ch.set i last).dropLast
    | none => ch

/-- The terminal step of Insert: the walk must have ended on a Key.  A Dict
or List node replaces the Key's value; a Key node is merged into the
existing Dict value (removing a duplicate name, then re-sorting) or, if the
value is not a Dict, replaces it by a singleton Dict; anything else replaces
the value by a singleton Dict. -/
def insTerm (cur : Node) (node : Node) : Except String Node :=
  match cur with
  | .key nm v c =>
    match node with
    | .dict _ _ => .ok (.key nm (some node) c)
    | .list _ _ => .ok (.key nm (some node) c)
    | .key xnm _ _ =>
      match v with
      | some (.dict ch p) =>
        .ok (.key nm (some (.dict (sortD (swapRemoveNamed ch xnm ++ [node])) p)) c)
      | _ => .ok (.key nm (some (.dict [node] none)) c)
    | _ => .ok (.key nm (some (.dict [node] none)) c)
  | _ => .error "expecting Key"

/-- The walk of Insert over the split selector. -/
def insWalk : Node → List String → Node → Except String Node
  | cur, [], node => insTerm cur node
  | cur, p :: rest, node =>
    match findN cur p with
    | some n => (insWalk n rest node).map (setFound cur p)
    | none =>
      match cur with
      | .key nm v c =>
        match v with
        | some (.dict ch dp) =>
          (insWalk (.key p (some (.dict [] none)) none) rest node).map
            (fun n2 => .key nm (some (.dict (sortD (ch ++ [n2])) dp)) c)
        | some (.list ch lp) =>
          (insWalk (.dict [] none) rest node).map
            (fun n2 => .key nm (some (.list (ch ++ [n2]) lp)) c)
        | _ => .error "expecting collection"
      | .dict ch dp =>
        (insWalk (.key p (some (.dict [] none)) none) rest node).map
          (fun n2 => .dict (sortD (ch ++ [n2])) dp)
      | _ => .error "expecting Dict"

/-- splitPath: the empty selector yields no components. -/
def splitPath (s : String) : List String := if s = "" then [] else splitDots s

/-- Insert(a, node, to) on the root node of the AST. -/
def insertGo (root : Node) (node : Node) (sel : String) : Except String Node :=
  insWalk root (splitPath sel) node

/-- Lookup: follow the selector components through Node.Find. -/
def lookupN : Node → List String → Option Node
  | cur, [] => some cur
  | cur, p :: rest =>
    match findN cur p with
    | some n => lookupN n rest
    | none => none

/-! ## Well-formedness predicates (all executable) -/

/-- Every node of the list is a Key. -/
def allKeys : List Node → Bool
  | [] => true
  | .key _ _ _ :: cs => allKeys cs
  | _ :: _ => false

def nameNotIn (nm : String) : List Node → Bool
  | [] => true
  | c :: cs => !(keyName c == nm) && nameNotIn nm cs

/-- Key names of the list are pairwise distinct. -/
def nodupNames : List Node → Bool
  | [] => true
  | c :: cs => nameNotIn (keyName c) cs && nodupNames cs

/-- Children are in ascending (nondecreasing) name order. -/
def sortedNames : List Node → Bool
  | [] => true
  | [_] => true
  | a :: b :: rest => strLe (keyName a) (keyName b) && sortedNames (b :: rest)

mutual
/-- Well-formed tree: every Dict has only Key children with pairwise
distinct names, and no Go nil node occurs. -/
def wfN : Node → Bool
  | .dict ch _ => allKeys ch && nodupNames ch && wfList ch
  | .list ch _ => wfList ch
  | .key _ v _ =>
    match v with
    | some x => wfN x
    | none => true
  | .null => false
  | _ => true
def wfList : List Node → Bool
  | [] => true
  | c :: cs => wfN c && wfList cs
end

mutual
/-- No Go nil node anywhere in the tree (hashing panics on nil children). -/
def noNull : Node → Bool
  | .dict ch _ => noNullList ch
  | .list ch _ => noNullList ch
  | .key _ v _ =>
    match v with
    | some x => noNull x
    | none => true
  | .null => false
  | _ => true
def noNullList : List Node → Bool
  | [] => true
  | c :: cs => noNull c && noNullList cs
end

mutual
/-- Every Dict anywhere in the tree has ascending-name children. -/
def dictsSorted : Node → Bool
  | .dict ch _ => sortedNames ch && dictsSortedList ch
  | .list ch _ => dictsSortedList ch
  | .key _ v _ =>
    match v with
    | some x => dictsSorted x
    | none => true
  | _ => true
def dictsSortedList : List Node → Bool
  | [] => true
  | c :: cs => dictsSorted c && dictsSortedList cs
end

/-! ## The variable engine

The Vars context, the eql compiler and the compiled Expression live outside
this file's source (vars.go and the eql package); per the spec they are
opaque interfaces, so they are abstracted into three function fields.
replace is Vars.Replace on a string value (it may return a node, the Go nil
node as none to drop the value, or an error); compile is eql.New; evalE is
Expression.Eval against this same Vars context with strict missing-variable
handling, as the source always calls it.

Key.Apply mutates its receiver: the compiled condition is memoized into the
source Key's condition field.  Every apply function therefore returns the
pair (result, updated source node); aside from that memoization the source
is returned unchanged, which claim C5 makes precise.  A Go panic (a failed
type assertion, or a method call on a nil child) is the distinguished error
goPanic. -/

structure Vars where
  replace : String → Except String (Option Node)
  compile : String → Except String String
  evalE : String → Except String Bool

inductive AErr where
  | badCondition (msg : String)
  | varsErr (msg : String)
  | goPanic

/-- The result of n.Value() viewed as a *BoolVal, for the type assertion in
Dict.Apply on the applied condition entry. -/
def condBool : Node → Option Bool
  | .key _ (some (.boolV b _)) _ => some b
  | _ => none

mutual
def applyN : Node → Vars → Except AErr (Option Node) × Node
  | .strV s p, vs =>
    (match vs.replace s with
     | .ok r => .ok r
     | .error e => .error (.varsErr e), .strV s p)
  | .intV i p, _ => (.ok (some (.intV i p)), .intV i p)
  | .uintV u p, _ => (.ok (some (.uintV u p)), .uintV u p)
  | .floatV f p, _ => (.ok (some (.floatV f p)), .floatV f p)
  | .boolV b p, _ => (.ok (some (.boolV b p)), .boolV b p)
  | .list ch p, vs =>
    (match applyList ch vs with
     | (.ok ns, ch2) => (.ok (some (.list ns none)), .list ch2 p)
     | (.error e, ch2) => (.error e, .list ch2 p))
  | .dict ch p, vs =>
    (match applyDictCh ch vs with
     | (.ok (some ns), ch2) => (.ok (some (.dict ns none)), .dict ch2 p)
     | (.ok none, ch2) => (.ok none, .dict ch2 p)
     | (.error e, ch2) => (.error e, .dict ch2 p))
  | .key nm v c, vs =>
    match v with
    | none => (.ok (some (.key nm none c)), .key nm none c)
    | some val =>
      if nm = "condition" then
        match val with
        | .boolV b p =>
          (.ok (some (.key nm (some (.boolV b p)) c)), .key nm (some (.boolV b p)) c)
        | .strV s p =>
          (match c with
           | none =>
             match vs.compile s with
             | .error e => (.error (.badCondition e), .key nm (some (.strV s p)) none)
             | .ok ex =>
               match vs.evalE ex with
               | .error e => (.error (.badCondition e), .key nm (some (.strV s p)) (some ex))
               | .ok b =>
                 (.ok (some (.key nm (some (.boolV b none)) none)),
                  .key nm (some (.strV s p)) (some ex))
           | some ex =>
             match vs.evalE ex with
             | .error e => (.error (.badCondition e), .key nm (some (.strV s p)) (some ex))
             | .ok b =>
               (.ok (some (.key nm (some (.boolV b none)) none)),
                .key nm (some (.strV s p)) (some ex)))
        | _ =>
          (.error (.badCondition "condition value must be a bool or string"),
           .key nm (some val) c)
      else
        match applyN val vs with
        | (.ok (some nv), val2) => (.ok (some (.key nm (some nv) none)), .key nm (some val2) c)
        | (.ok none, val2) => (.ok none, .key nm (some val2) c)
        | (.error e, val2) => (.error e, .key nm (some val2) c)
  | .null, _ => (.error .goPanic, .null)
def applyList : List Node → Vars → Except AErr (List Node) × List Node
  | [], _ => (.ok [], [])
  | v :: rest, vs =>
    match applyN v vs with
    | (.error e, v2) => (.error e, v2 :: rest)
    | (.ok r, v2) =>
      match applyList rest vs with
      | (.error e, rest2) => (.error e, v2 :: rest2)
      | (.ok ns, rest2) =>
        match r with
        | none => (.ok ns, v2 :: rest2)
        | some n => (.ok (n :: ns), v2 :: rest2)
def applyDictCh : List Node → Vars → Except AErr (Option (List Node)) × List Node
  | [], _ => (.ok (some []), [])
  | v :: rest, vs =>
    match v with
    | .key knm kv kc =>
      match applyN (.key knm kv kc) vs with
      | (.error e, v2) => (.error e, v2 :: rest)
      | (.ok none, v2) =>
        (match applyDictCh rest vs with
         | (.ok o, rest2) => (.ok o, v2 :: rest2)
         | (.error e, rest2) => (.error e, v2 :: rest2))
      | (.ok (some n), v2) =>
        if knm = "condition" then
          match condBool n with
          | some true =>
            (match applyDictCh rest vs with
             | (.ok o, rest2) => (.ok o, v2 :: rest2)
             | (.error e, rest2) => (.error e, v2 :: rest2))
          | some false => (.ok none, v2 :: rest)
          | none => (.error .goPanic, v2 :: rest)
        else
          match applyDictCh rest vs with
          | (.ok (some ns), rest2) => (.ok (some (n :: ns)), v2 :: rest2)
          | (.ok none, rest2) => (.ok none, v2 :: rest2)
          | (.error e, rest2) => (.error e, v2 :: rest2)
    | other => (.error .goPanic, other :: rest)
end

/-- Key.Apply on a Key assembled from its fields. -/
def applyKey (nm : String) (v : Option Node) (c : Option String) (vs : Vars) :
    Except AErr (Option Node) × Node :=
  applyN (.key nm v c) vs

/-! ## The loader

Native values as accepted by NewAST: a mapping with string keys, sequences,
strings, signed and unsigned integers, floats (payload represented by its
canonical decimal form, as for FloatVal), booleans and nil.  A Go native map
cannot hold duplicate keys; the entry-list representation can, so claims
assume distinct keys where it matters.  Kinds the loader rejects (channels,
structs, ...) are outside the model, so load is total. -/

inductive NVal where
  | map (entries : List (String × NVal))
  | arr (elems : List NVal)
  | str (s : String)
  | int (i : Int)
  | uint (u : Nat)
  | float (f : String)
  | bool (b : Bool)
  | nil

/-- The isDictOrKey test of the loader (a Go nil interface is neither). -/
def isDictOrKey : Option Node → Bool
  | some (.dict _ _) => true
  | some (.key _ _ _) => true
  | _ => false

/-- The remainder chain of the dotted-key walk: iterating from the last path
component, the innermost Dict holds the loaded value and every outer layer
wraps a Clone of the previous Dict (the source calls restDict.Clone()). -/
def buildChain : List String → Node → Node
  | [], _ => .dict [] none
  | [k], v => .dict [.key k (some v) none] none
  | k :: k2 :: rest, v => .dict [.key k (some (cloneN (buildChain (k2 :: rest) v))) none] none

/-- Children of a Dict node (empty for other variants). -/
def dictChildren : Node → List Node
  | .dict ch _ => ch
  | _ => []

/-- The remainder Dict: with no remaining components the loaded value is
unwrapped (a Dict contributes its children, a Key its value, anything else
itself); otherwise the chain is built. -/
def restDictOf (restKeys : List String) (aValue : Node) : Node :=
  match restKeys with
  | [] =>
    match aValue with
    | .dict ch _ => .dict ch none
    | .key _ v _ => .dict [v.getD .null] none
    | x => .dict [x] none
  | _ => buildChain restKeys aValue

/-- Attach the remainder at the last known node: a Dict gains a Key named
after the last matched (or first) component holding the remainder Dict; a
Key whose value is a Dict gains the remainder's children; a Key with any
other value silently drops the remainder (as the source does). -/
def attach (kn : Node) (lastName : String) (restKeys : List String) (aValue : Node) : Node :=
  let rd := restDictOf restKeys aValue
  match kn with
  | .dict ch p => .dict (ch ++ [.key lastName (some rd) none]) p
  | .key nm v c =>
    match v with
    | some (.dict ch p) => .key nm (some (.dict (ch ++ dictChildren rd) p)) c
    | _ => .key nm v c
  | x => x

/-- The walk over the remaining components after cur was found under
lastName: a failed Find attaches the remainder (starting at the failing
component) to cur; exhausting the components attaches the unwrapped value
to cur; a successful Find descends and writes the result back. -/
def hatt (cur : Node) (lastName : String) (keys : List String) (aValue : Node) : Node :=
  match keys with
  | [] => attach cur lastName [] aValue
  | k :: rest =>
    match findN cur k with
    | none => attach cur lastName (k :: rest) aValue
    | some child => setFound cur k (hatt child k rest aValue)

/-- The dotted-key walk from the root Dict being built: if even the first
component is unknown the remainder hangs off the root under that component;
otherwise descend. -/
def loadDotted (root : Node) (keys : List String) (aValue : Node) : Node :=
  match keys with
  | [] => root
  | k :: rest =>
    match findN root k with
    | none => attach root k rest aValue
    | some child => setFound root k (hatt child k rest aValue)

/-- Append one Key to the Dict being built. -/
def appendKey : Node → Node → Node
  | .dict ch p, k => .dict (ch ++ [k]) p
  | x, _ => x

/-- One iteration of the loadMap loop for one (sorted) key name: a value
that is neither Dict nor Key (nil included) appends KeyedEntry(name, value)
verbatim; otherwise the name is split on dots and the walk runs. -/
def loadStep (root : Node) (name : String) (aValue : Option Node) : Node :=
  if isDictOrKey aValue then
    match aValue with
    | some v => loadDotted root (splitDots name) v
    | none => root
  else
    appendKey root (.key name aValue none)

/-- Go map indexing over the entry list (first binding wins; a native map
has unique keys). -/
def lookupEntry : List (String × Option Node) → String → Option Node
  | [], _ => none
  | (k, v) :: rest, nm => if k = nm then v else lookupEntry rest nm

/-- loadMap: process the key names in ascending order, starting from an
empty Dict. -/
def loadMapFromLoaded (les : List (String × Option Node)) : Node :=
  (sortStrs (les.map Prod.fst)).foldl
    (fun root nm => loadStep root nm (lookupEntry les nm)) (.dict [] none)

mutual
/-- load: dispatch on the native kind.  nil yields the Go nil node (none). -/
def load : NVal → Option Node
  | .map es => some (loadMapFromLoaded (loadEntries es))
  | .arr xs => some (.list (loadArr xs) none)
  | .str s => some (.strV s none)
  | .int i => some (.intV i none)
  | .uint u => some (.uintV u none)
  | .float f => some (.floatV f none)
  | .bool b => some (.boolV b none)
  | .nil => none
def loadArr : List NVal → List Node
  | [] => []
  | x :: xs => ((load x).getD .null) :: loadArr xs
def loadEntries : List (String × NVal) → List (String × Option Node)
  | [] => []
  | (k, v) :: es => (k, load v) :: loadEntries es
end

/-- NewAST: the input is a native mapping; the root is the loaded Dict. -/
def newAST (es : List (String × NVal)) : Node := loadMapFromLoaded (loadEntries es)

/-! ## The materializer -/

mutual
/-- Modelled from the spec: the MapVisitor and the visitor dispatch of
AST.Map live in visitor.go, which is not among the provided sources.
Following spec section 4.4, the visitor walks the tree in child order and
reconstitutes a native value whose container types mirror the variants:
a Dict becomes a mapping of (key name, materialized value) in child order,
a List a sequence, scalars their payloads; a KeyedEntry with an absent
value contributes nil, and a Go nil List element materializes to nil. -/
def materialize : Node → NVal
  | .dict ch _ => .map (matEntries ch)
  | .list ch _ => .arr (matList ch)
  | .key _ v _ =>
    match v with
    | some x => materialize x
    | none => .nil
  | .strV s _ => .str s
  | .intV i _ => .int i
  | .uintV u _ => .uint u
  | .floatV f _ => .float f
  | .boolV b _ => .bool b
  | .null => .nil
def matEntries : List Node → List (String × NVal)
  | [] => []
  | .key nm v _ :: rest =>
    (nm, match v with
         | some x => materialize x
         | none => NVal.nil) :: matEntries rest
  | _ :: rest => matEntries rest
def matList : List Node → List NVal
  | [] => []
  | c :: cs => materialize c :: matList cs
end

/-! ## Key-sorted form of a native value

The loader emits mapping keys in ascending order, so round-tripping can
only return the input up to key reordering; sortK is that canonical
reordering (a stable insertion sort by key on every mapping). -/

def sortPairs (l : List (String × NVal)) : List (String × NVal) := sortBy Prod.fst l

mutual
def sortK : NVal → NVal
  | .map es => .map (sortPairs (sortKEntries es))
  | .arr xs => .arr (sortKList xs)
  | x => x
def sortKEntries : List (String × NVal) → List (String × NVal)
  | [] => []
  | (k, v) :: es => (k, sortK v) :: sortKEntries es
def sortKList : List NVal → List NVal
  | [] => []
  | x :: xs => sortK x :: sortKList xs
end

/-- The key is distinct from every key of the entry list. -/
def keyNotIn (k : String) : List (String × NVal) → Bool
  | [] => true
  | (k2, _) :: es => !(k == k2) && keyNotIn k es

mutual
/-- Dot-free well-formed native value: every mapping key contains no dot
(stated operationally: splitting it on dots returns it alone) and mapping
keys are pairwise distinct. -/
def goodV : NVal → Bool
  | .map es => goodEntries es
  | .arr xs => goodList xs
  | _ => true
def goodEntries : List (String × NVal) → Bool
  | [] => true
  | (k, v) :: es => (splitDots k == [k]) && keyNotIn k es && goodV v && goodEntries es
def goodList : List NVal → Bool
  | [] => true
  | x :: xs => goodV x && goodList xs
end

/-! ## Order lemmas for the Go string order -/

theorem chLe_total : ∀ a b : List Char, chLe a b = true ∨ chLe b a = true
  | [], _ => Or.inl rfl
  | _ :: _, [] => Or.inr rfl
  | x :: xs, y :: ys => by
    rcases Nat.lt_trichotomy x.val.toNat y.val.toNat with h | h | h
    · left; simp [chLe, h]
    · rcases chLe_total xs ys with ih | ih
      · left; simp [chLe, h, ih]
      · right; simp [chLe, h.symm, ih]
    · right; simp [chLe, h]

theorem chLe_trans : ∀ a b c : List Char, chLe a b = true → chLe b c = true → chLe a c = true
  | [], _, _, _, _ => rfl
  | x :: xs, [], _, h, _ => by simp [chLe] at h
  | _ :: _, _ :: _, [], _, h => by simp [chLe] at h
  | x :: xs, y :: ys, z :: zs, h1, h2 => by
    by_cases hxy : x.val.toNat < y.val.toNat <;>
      by_cases hyz : y.val.toNat < z.val.toNat <;>
        by_cases hyx : y.val.toNat < x.val.toNat <;>
          by_cases hzy : z.val.toNat < y.val.toNat <;>
            simp_all [chLe] <;>
              first
                | omega
                | exact Or.inr (by constructor; omega; exact chLe_trans xs ys zs h1 h2)

theorem chLe_antisymm : ∀ a b : List Char, chLe a b = true → chLe b a = true → a = b
  | [], [], _, _ => rfl
  | [], _ :: _, _, h => by simp [chLe] at h
  | _ :: _, [], h, _ => by simp [chLe] at h
  | x :: xs, y :: ys, h1, h2 => by
    by_cases hxy : x.val.toNat < y.val.toNat <;> by_cases hyx : y.val.toNat < x.val.toNat <;>
      simp_all [chLe]
    · omega
    · have hv : x = y := Char.ext (UInt32.ext (by omega))
      exact ⟨hv, chLe_antisymm xs ys h1 h2⟩

theorem strLe_total (a b : String) : strLe a b = true ∨ strLe b a = true :=
  chLe_total a.data b.data

theorem strLe_trans {a b c : String} (h1 : strLe a b = true) (h2 : strLe b c = true) :
    strLe a c = true :=
  chLe_trans a.data b.data c.data h1 h2

theorem strLe_antisymm {a b : String} (h1 : strLe a b = true) (h2 : strLe b a = true) :
    a = b := by
  have h := chLe_antisymm a.data b.data h1 h2
  cases a; cases b; simp_all

theorem strLe_refl (a : String) : strLe a a = true := by
  rcases strLe_total a a with h | h <;> exact h

/-- The relation a comes-no-later-than b under the key function. -/
def keyLe {a : Type} (f : a → String) (x y : a) : Prop := strLe (f x) (f y) = true

/-- Keyed sortedness (pairwise, equivalent to adjacent by transitivity). -/
def sortedBy {a : Type} (f : a → String) (l : List a) : Prop := List.Pairwise (keyLe f) l

/-- Pairwise-distinct keys. -/
def nodupBy {a : Type} (f : a → String) (l : List a) : Prop :=
  List.Pairwise (fun x y => ¬ (f x = f y)) l

theorem insBy_perm {a : Type} (f : a → String) (x : a) :
    ∀ l : List a, (insBy f x l).Perm (x :: l)
  | [] => List.Perm.refl _
  | y :: ys => by
    by_cases h : strLe (f x) (f y) = true
    · simp [insBy, h]
    · simp only [insBy, h]
      exact ((insBy_perm f x ys).cons y).trans (List.Perm.swap x y ys)

theorem sortBy_perm {a : Type} (f : a → String) : ∀ l : List a, (sortBy f l).Perm l
  | [] => List.Perm.refl _
  | x :: xs => (insBy_perm f x (sortBy f xs)).trans ((sortBy_perm f xs).cons x)

theorem insBy_sorted {a : Type} (f : a → String) (x : a) :
    ∀ l : List a, sortedBy f l → sortedBy f (insBy f x l)
  | [], _ => by simp [insBy, sortedBy]
  | y :: ys, h => by
    rcases List.pairwise_cons.mp h with ⟨hy, hys⟩
    by_cases hxy : strLe (f x) (f y) = true
    · simp only [insBy, hxy, if_true]
      refine List.pairwise_cons.mpr ⟨?_, h⟩
      intro z hz
      rcases List.mem_cons.mp hz with rfl | hz
      · exact hxy
      · exact strLe_trans hxy (hy z hz)
    · simp only [insBy, hxy, if_false]
      have hyx : strLe (f y) (f x) = true := (strLe_total (f x) (f y)).resolve_left hxy
      refine List.pairwise_cons.mpr ⟨?_, insBy_sorted f x ys hys⟩
      intro z hz
      have hz2 := (insBy_perm f x ys).mem_iff.mp hz
      rcases List.mem_cons.mp hz2 with rfl | hz2
      · exact hyx
      · exact hy z hz2

theorem sortBy_sorted {a : Type} (f : a → String) : ∀ l : List a, sortedBy f (sortBy f l)
  | [] => by simp [sortBy, sortedBy]
  | x :: xs => insBy_sorted f x (sortBy f xs) (sortBy_sorted f xs)

/-- Two sorted lists with the same elements and duplicate-free keys are
equal: ascending key order with unique keys is canonical. -/
theorem eq_of_perm_sortedBy {a : Type} (f : a → String) :
    ∀ l₁ l₂ : List a, l₁.Perm l₂ → sortedBy f l₁ → sortedBy f l₂ → nodupBy f l₁ → l₁ = l₂
  | [], l₂, hp, _, _, _ => (List.Perm.nil_eq hp).symm ▸ rfl
  | x :: t₁, l₂, hp, hs₁, hs₂, hd₁ => by
    cases l₂ with
    | nil => exact absurd hp.symm (by simp)
    | cons y t₂ =>
      rcases List.pairwise_cons.mp hs₁ with ⟨hx1, hs₁'⟩
      rcases List.pairwise_cons.mp hs₂ with ⟨hy2, hs₂'⟩
      rcases List.pairwise_cons.mp hd₁ with ⟨hd1, hd₁'⟩
      have hxy : x = y := by
        have hxm : x ∈ y :: t₂ := hp.mem_iff.mp (List.mem_cons_self x t₁)
        rcases List.mem_cons.mp hxm with rfl | hxm
        · rfl
        · have hym : y ∈ x :: t₁ := hp.symm.mem_iff.mp (List.mem_cons_self y t₂)
          rcases List.mem_cons.mp hym with rfl | hym
          · rfl
          · have h1 : strLe (f x) (f y) = true := hx1 y hym
            have h2 : strLe (f y) (f x) = true := hy2 x hxm
            exact absurd (strLe_antisymm h1 h2) (fun he => hd1 y hym he)
      subst hxy
      have hp' : t₁.Perm t₂ := (List.perm_cons x).mp hp
      rw [eq_of_perm_sortedBy f t₁ t₂ hp' hs₁' hs₂' hd₁']

/-! ## Bridges between the executable predicates and Pairwise forms -/

theorem sortedNames_iff : ∀ l : List Node, sortedNames l = true ↔ sortedBy keyName l
  | [] => by simp [sortedNames, sortedBy]
  | [x] => by simp [sortedNames, sortedBy]
  | a :: b :: t => by
    have hrec := sortedNames_iff (b :: t)
    constructor
    · intro h
      rcases (Bool.and_eq_true _ _).mp h with ⟨hab, hrest⟩
      have hp := hrec.mp hrest
      refine List.pairwise_cons.mpr ⟨?_, hp⟩
      intro z hz
      rcases List.mem_cons.mp hz with rfl | hz
      · exact hab
      · exact strLe_trans hab ((List.pairwise_cons.mp hp).1 z hz)
    · intro h
      rcases List.pairwise_cons.mp h with ⟨hab, hrest⟩
      have h2 : sortedNames (b :: t) = true := hrec.mpr hrest
      have h1 : strLe (keyName a) (keyName b) = true := hab b (List.mem_cons_self b t)
      show (strLe (keyName a) (keyName b) && sortedNames (b :: t)) = true
      rw [h1, h2]
      rfl

theorem nameNotIn_iff : ∀ l : List Node, ∀ nm,
    nameNotIn nm l = true ↔ ∀ c ∈ l, ¬ (keyName c = nm)
  | [], nm => by simp [nameNotIn]
  | c :: cs, nm => by
    have hrec := nameNotIn_iff cs nm
    constructor
    · intro h
      rcases (Bool.and_eq_true _ _).mp h with ⟨h1, h2⟩
      intro x hx
      rcases List.mem_cons.mp hx with rfl | hx
      · simpa using h1
      · exact hrec.mp h2 x hx
    · intro h
      have h1 : ¬ (keyName c = nm) := h c (List.mem_cons_self c cs)
      have h2 := hrec.mpr (fun x hx => h x (List.mem_cons_of_mem c hx))
      show (!(keyName c == nm) && nameNotIn nm cs) = true
      rw [h2]
      simp [h1]

theorem nodupNames_iff : ∀ l : List Node, nodupNames l = true ↔ nodupBy keyName l
  | [] => by simp [nodupNames, nodupBy]
  | c :: cs => by
    have hrec := nodupNames_iff cs
    constructor
    · intro h
      rcases (Bool.and_eq_true _ _).mp h with ⟨h1, h2⟩
      refine List.pairwise_cons.mpr ⟨?_, hrec.mp h2⟩
      intro z hz he
      exact ((nameNotIn_iff cs (keyName c)).mp h1) z hz he.symm
    · intro h
      rcases List.pairwise_cons.mp h with ⟨h1, h2⟩
      have hn : nameNotIn (keyName c) cs = true :=
        (nameNotIn_iff cs (keyName c)).mpr (fun z hz he => h1 z hz he.symm)
      simp [nodupNames, hn, hrec.mpr h2]

theorem allKeys_iff : ∀ l : List Node,
    allKeys l = true ↔ ∀ c ∈ l, ∃ nm v cc, c = Node.key nm v cc
  | [] => by simp [allKeys]
  | c :: cs => by
    have hrec := allKeys_iff cs
    cases c <;> simp [allKeys, hrec]

/-! ## findIn / replaceFirstNamed correspondence -/

theorem findIn_eq_none : ∀ ch : List Node, ∀ k,
    findIn ch k = none ↔ ∀ c ∈ ch, ¬ (keyName c = k)
  | [], k => by simp [findIn]
  | c :: cs, k => by
    have hrec := findIn_eq_none cs k
    by_cases h : keyName c = k <;> simp [findIn, h, hrec]

theorem findIn_mem : ∀ ch : List Node, ∀ k n,
    findIn ch k = some n → n ∈ ch ∧ keyName n = k
  | [], k, n => by simp [findIn]
  | c :: cs, k, n => by
    by_cases h : keyName c = k <;> simp only [findIn, h, if_true, if_false]
    · intro he; cases he; exact ⟨List.mem_cons_self _ _, h⟩
    · intro hf
      rcases findIn_mem cs k n hf with ⟨h1, h2⟩
      exact ⟨List.mem_cons_of_mem c h1, h2⟩

theorem findIn_unique : ∀ ch : List Node, ∀ k n, n ∈ ch → keyName n = k →
    (∀ c ∈ ch, keyName c = k → c = n) → findIn ch k = some n
  | [], k, n => by simp
  | c :: cs, k, n => by
    intro hm hn hu
    by_cases h : keyName c = k
    · have he : c = n := hu c (List.mem_cons_self c cs) h
      show (if keyName c = k then some c else findIn cs k) = some n
      rw [if_pos h, he]
    · simp only [findIn, h, if_false]
      rcases List.mem_cons.mp hm with rfl | hm
      · exact absurd hn h
      · exact findIn_unique cs k n hm hn (fun x hx => hu x (List.mem_cons_of_mem c hx))

theorem replaceFirst_of_found : ∀ ch : List Node, ∀ k n m, findIn ch k = some n →
    keyName m = k → findIn (replaceFirstNamed ch k m) k = some m
  | [], k, n, m => by simp [findIn]
  | c :: cs, k, n, m => by
    intro hf hm
    by_cases h : keyName c = k
    · simp [findIn, replaceFirstNamed, h, hm]
    · simp only [findIn, replaceFirstNamed, h, if_false] at hf ⊢
      exact replaceFirst_of_found cs k n m hf hm

theorem replaceFirst_none : ∀ ch : List Node, ∀ k m, findIn ch k = none →
    replaceFirstNamed ch k m = ch
  | [], k, m => by simp [replaceFirstNamed]
  | c :: cs, k, m => by
    intro hf
    by_cases h : keyName c = k
    · simp [findIn, h] at hf
    · simp only [findIn, h, if_false] at hf
      simp [replaceFirstNamed, h, replaceFirst_none cs k m hf]

theorem replaceFirst_self : ∀ ch : List Node, ∀ k m, findIn ch k = some m →
    replaceFirstNamed ch k m = ch
  | [], k, m => by simp [findIn]
  | c :: cs, k, m => by
    intro hf
    by_cases h : keyName c = k
    · simp only [findIn, h, if_true] at hf
      cases hf
      simp [replaceFirstNamed, h]
    · simp only [findIn, h, if_false] at hf
      simp [replaceFirstNamed, h, replaceFirst_self cs k m hf]

theorem replaceFirst_mem : ∀ ch : List Node, ∀ k m y, y ∈ replaceFirstNamed ch k m →
    y = m ∨ y ∈ ch
  | [], k, m, y => by simp [replaceFirstNamed]
  | c :: cs, k, m, y => by
    intro hy
    by_cases h : keyName c = k <;> simp only [replaceFirstNamed, h, if_true, if_false] at hy
    · rcases List.mem_cons.mp hy with rfl | hy
      · exact Or.inl rfl
      · exact Or.inr (List.mem_cons_of_mem c hy)
    · rcases List.mem_cons.mp hy with rfl | hy
      · exact Or.inr (List.mem_cons_self _ _)
      · rcases replaceFirst_mem cs k m y hy with h2 | h2
        · exact Or.inl h2
        · exact Or.inr (List.mem_cons_of_mem c h2)

/-! ## Claim C1 -/

/-- The tree NewAST loads from the native mapping with keys a.b and a.c and
integer values 1 and 2.  Both values are scalars, so loadMap appends the
keyed entries with their dotted names verbatim (the dotted-key walk only
runs when the loaded value is a Dict or Key). -/
def c1Tree : Node := newAST [("a.b", .int 1), ("a.c", .int 2)]

/-- C1 counterexample: the strong hash of the root of the tree loaded from
the mapping a.b to 1, a.c to 2 does not equal the SHA-256 of the flat
concatenation of the bytes of "a", "b", "1", "c", "2" claimed by the spec:
the loader keeps the dotted names (scalar values are not exploded), and the
strong hash digests every Key and every Dict recursively instead of feeding
the flat canonical bytes. -/
theorem c1_counterexample :
    hashN c1Tree ≠
      some (sha256 (strBytes "a" ++ strBytes "b" ++ strBytes "1" ++
        strBytes "c" ++ strBytes "2")) := by
  decide

/-- C1 amended: the fast hash is fed the flat canonical byte sequence (a
KeyedEntry feeds its name's UTF-8 bytes then its value's canonical bytes, a
Mapping concatenates its children with no delimiter), which for this tree is
the bytes of "a.b" "1" "a.c" "2"; the strong hash is instead computed
recursively, digesting at every Key and Dict: the root strong hash is the
SHA-256 of the concatenation of the two child Key digests, each the SHA-256
of name bytes followed by value bytes.  The two hashes are therefore fed
different byte sequences, and neither uses the exploded names a, b, c. -/
theorem c1_hashes_amended :
    feed64 c1Tree =
      some (strBytes "a.b" ++ strBytes "1" ++ strBytes "a.c" ++ strBytes "2") ∧
    hashN c1Tree =
      some (sha256 (sha256 (strBytes "a.b" ++ strBytes "1") ++
        sha256 (strBytes "a.c" ++ strBytes "2"))) := by
  exact ⟨by decide, by decide⟩

/-! ## Claim C10 -/

theorem firstProcs_none_iff : ∀ l : List Node,
    firstProcs l = none ↔ ∀ c ∈ l, processorsN c = none
  | [] => by simp [firstProcs]
  | c :: cs => by
    have hrec := firstProcs_none_iff cs
    constructor
    · intro h x hx
      rcases List.mem_cons.mp hx with rfl | hx
      · rcases hp : processorsN x with _ | q
        · rfl
        · rw [show firstProcs (x :: cs) =
              (match processorsN x with
               | some p => some p
               | none => firstProcs cs) from rfl, hp] at h
          cases h
      · rcases hp : processorsN c with _ | q
        · rw [show firstProcs (c :: cs) =
              (match processorsN c with
               | some p => some p
               | none => firstProcs cs) from rfl, hp] at h
          exact hrec.mp h x hx
        · rw [show firstProcs (c :: cs) =
              (match processorsN c with
               | some p => some p
               | none => firstProcs cs) from rfl, hp] at h
          cases h
    · intro h
      have h1 : processorsN c = none := h c (List.mem_cons_self c cs)
      have h2 : firstProcs cs = none := hrec.mpr (fun x hx => h x (List.mem_cons_of_mem c hx))
      rw [show firstProcs (c :: cs) =
          (match processorsN c with
           | some p => some p
           | none => firstProcs cs) from rfl, h1, h2]

mutual
theorem cloneN_procs_none : ∀ n : Node, processorsN n = none → processorsN (cloneN n) = none
  | .dict ch p, h => by
    cases p with
    | none =>
      have hch : firstProcs ch = none := by
        simpa [processorsN] using h
      simpa [cloneN, processorsN] using cloneList_procs_none ch hch
    | some q => simp [processorsN] at h
  | .list ch p, h => by
    cases p with
    | none =>
      have hch : firstProcs ch = none := by
        simpa [processorsN] using h
      simpa [cloneN, processorsN] using cloneList_procs_none ch hch
    | some q => simp [processorsN] at h
  | .key nm v c, h => by
    cases v with
    | none => simp [cloneN, processorsN]
    | some x =>
      have hx : processorsN x = none := by simpa [processorsN] using h
      simpa [cloneN, processorsN] using cloneN_procs_none x hx
  | .strV s p, h => by simpa [cloneN, processorsN] using h
  | .intV i p, h => by simpa [cloneN, processorsN] using h
  | .uintV u p, h => by simpa [cloneN, processorsN] using h
  | .floatV f p, h => by simpa [cloneN, processorsN] using h
  | .boolV b p, h => by simpa [cloneN, processorsN] using h
  | .null, _ => by simp [cloneN, processorsN]
theorem cloneList_procs_none : ∀ l : List Node, firstProcs l = none →
    firstProcs (cloneList l) = none
  | [], _ => rfl
  | c :: cs, h => by
    have h1 : processorsN c = none := (firstProcs_none_iff (c :: cs)).mp h c (List.mem_cons_self c cs)
    have h2 : firstProcs cs = none :=
      (firstProcs_none_iff cs).mpr
        (fun x hx => (firstProcs_none_iff (c :: cs)).mp h x (List.mem_cons_of_mem c hx))
    cases c with
    | null => simpa [cloneList] using cloneList_procs_none cs h2
    | dict ch p =>
      have := cloneN_procs_none (.dict ch p) h1
      simp only [cloneList, firstProcs, this]
      exact cloneList_procs_none cs h2
    | list ch p =>
      have := cloneN_procs_none (.list ch p) h1
      simp only [cloneList, firstProcs, this]
      exact cloneList_procs_none cs h2
    | key nm v cc =>
      have := cloneN_procs_none (.key nm v cc) h1
      simp only [cloneList, firstProcs, this]
      exact cloneList_procs_none cs h2
    | strV s p =>
      have := cloneN_procs_none (.strV s p) h1
      simp only [cloneList, firstProcs, this]
      exact cloneList_procs_none cs h2
    | intV i p =>
      have := cloneN_procs_none (.intV i p) h1
      simp only [cloneList, firstProcs, this]
      exact cloneList_procs_none cs h2
    | uintV u p =>
      have := cloneN_procs_none (.uintV u p) h1
      simp only [cloneList, firstProcs, this]
      exact cloneList_procs_none cs h2
    | floatV f p =>
      have := cloneN_procs_none (.floatV f p) h1
      simp only [cloneList, firstProcs, this]
      exact cloneList_procs_none cs h2
    | boolV b p =>
      have := cloneN_procs_none (.boolV b p) h1
      simp only [cloneList, firstProcs, this]
      exact cloneList_procs_none cs h2
end

theorem keepNonNull_procs_none : ∀ l : List Node, firstProcs l = none →
    firstProcs (keepNonNull l) = none
  | [], _ => rfl
  | c :: cs, h => by
    have h1 : processorsN c = none := (firstProcs_none_iff (c :: cs)).mp h c (List.mem_cons_self c cs)
    have h2 : firstProcs cs = none :=
      (firstProcs_none_iff cs).mpr
        (fun x hx => (firstProcs_none_iff (c :: cs)).mp h x (List.mem_cons_of_mem c hx))
    cases c <;>
      first
        | simpa [keepNonNull] using keepNonNull_procs_none cs h2
        | (simp only [keepNonNull, firstProcs, h1]
           exact keepNonNull_procs_none cs h2)

mutual
theorem shallowCloneN_procs_none : ∀ n : Node, processorsN n = none →
    processorsN (shallowCloneN n) = none
  | .dict ch p, h => by
    cases p with
    | none =>
      have hch : firstProcs ch = none := by
        simpa [processorsN] using h
      simpa [shallowCloneN, processorsN] using shallowCloneList_procs_none ch hch
    | some q => simp [processorsN] at h
  | .list ch p, h => by
    cases p with
    | none =>
      have hch : firstProcs ch = none := by
        simpa [processorsN] using h
      simpa [shallowCloneN, processorsN] using keepNonNull_procs_none ch hch
    | some q => simp [processorsN] at h
  | .key nm v c, h => by
    cases v with
    | none => simp [shallowCloneN, processorsN]
    | some x => simpa [shallowCloneN, processorsN] using h
  | .strV s p, h => by simpa [shallowCloneN, processorsN] using h
  | .intV i p, h => by simpa [shallowCloneN, processorsN] using h
  | .uintV u p, h => by simpa [shallowCloneN, processorsN] using h
  | .floatV f p, h => by simpa [shallowCloneN, processorsN] using h
  | .boolV b p, h => by simpa [shallowCloneN, processorsN] using h
  | .null, _ => by simp [shallowCloneN, processorsN]
theorem shallowCloneList_procs_none : ∀ l : List Node, firstProcs l = none →
    firstProcs (shallowCloneList l) = none
  | [], _ => rfl
  | c :: cs, h => by
    have h1 : processorsN c = none := (firstProcs_none_iff (c :: cs)).mp h c (List.mem_cons_self c cs)
    have h2 : firstProcs cs = none :=
      (firstProcs_none_iff cs).mpr
        (fun x hx => (firstProcs_none_iff (c :: cs)).mp h x (List.mem_cons_of_mem c hx))
    cases c with
    | null => simpa [shallowCloneList] using shallowCloneList_procs_none cs h2
    | dict ch p =>
      have := shallowCloneN_procs_none (.dict ch p) h1
      simp only [shallowCloneList, firstProcs, this]
      exact shallowCloneList_procs_none cs h2
    | list ch p =>
      have := shallowCloneN_procs_none (.list ch p) h1
      simp only [shallowCloneList, firstProcs, this]
      exact shallowCloneList_procs_none cs h2
    | key nm v cc =>
      have := shallowCloneN_procs_none (.key nm v cc) h1
      simp only [shallowCloneList, firstProcs, this]
      exact shallowCloneList_procs_none cs h2
    | strV s p =>
      have := shallowCloneN_procs_none (.strV s p) h1
      simp only [shallowCloneList, firstProcs, this]
      exact shallowCloneList_procs_none cs h2
    | intV i p =>
      have := shallowCloneN_procs_none (.intV i p) h1
      simp only [shallowCloneList, firstProcs, this]
      exact shallowCloneList_procs_none cs h2
    | uintV u p =>
      have := shallowCloneN_procs_none (.uintV u p) h1
      simp only [shallowCloneList, firstProcs, this]
      exact shallowCloneList_procs_none cs h2
    | floatV f p =>
      have := shallowCloneN_procs_none (.floatV f p) h1
      simp only [shallowCloneList, firstProcs, this]
      exact shallowCloneList_procs_none cs h2
    | boolV b p =>
      have := shallowCloneN_procs_none (.boolV b p) h1
      simp only [shallowCloneList, firstProcs, this]
      exact shallowCloneList_procs_none cs h2
end

/-- C10: Clone and ShallowClone of a Dict or List discard that node's own
attached processors (the source rebuilds the struct without the processors
field), so for a Dict or List carrying processors whose children carry
none, Processors() returns the list before cloning and nothing after;
scalar Clone copies the struct and keeps its processors. -/
theorem c10_clone_processors (ch : List Node) (ps : List Nat) (s : String) (i : Int)
    (u : Nat) (f : String) (b : Bool)
    (hch : ∀ c ∈ ch, processorsN c = none) :
    (processorsN (.dict ch (some ps)) = some ps ∧
     processorsN (cloneN (.dict ch (some ps))) = none ∧
     processorsN (shallowCloneN (.dict ch (some ps))) = none) ∧
    (processorsN (.list ch (some ps)) = some ps ∧
     processorsN (cloneN (.list ch (some ps))) = none ∧
     processorsN (shallowCloneN (.list ch (some ps))) = none) ∧
    (processorsN (cloneN (.strV s (some ps))) = some ps ∧
     processorsN (cloneN (.intV i (some ps))) = some ps ∧
     processorsN (cloneN (.uintV u (some ps))) = some ps ∧
     processorsN (cloneN (.floatV f (some ps))) = some ps ∧
     processorsN (cloneN (.boolV b (some ps))) = some ps) := by
  have hfp : firstProcs ch = none := (firstProcs_none_iff ch).mpr hch
  refine ⟨⟨rfl, ?_, ?_⟩, ⟨rfl, ?_, ?_⟩, rfl, rfl, rfl, rfl, rfl⟩
  · simpa [cloneN, processorsN] using cloneList_procs_none ch hfp
  · simpa [shallowCloneN, processorsN] using shallowCloneList_procs_none ch hfp
  · simpa [cloneN, processorsN] using cloneList_procs_none ch hfp
  · simpa [shallowCloneN, processorsN] using keepNonNull_procs_none ch hfp

/-- C10 witness: a concrete Dict and List with attached processors and one
processor-free child each. -/
theorem c10_clone_processors_witness :
    processorsN (.dict [.key "k" (some (.intV 1 none)) none] (some [7])) = some [7] ∧
    processorsN (cloneN (.dict [.key "k" (some (.intV 1 none)) none] (some [7]))) = none ∧
    processorsN (cloneN (.strV "s" (some [7]))) = some [7] :=
  have h := c10_clone_processors [.key "k" (some (.intV 1 none)) none] [7] "s" 1 1 "1.5" true
    (by decide)
  ⟨h.1.1, h.1.2.1, h.2.2.1⟩

/-! ## Claim C8 -/

theorem cloneList_cons_nonnull (c : Node) (cs : List Node) (h : noNull c = true) :
    cloneList (c :: cs) = cloneN c :: cloneList cs := by
  cases c <;> try rfl
  simp [noNull] at h

theorem shallowCloneList_cons_nonnull (c : Node) (cs : List Node) (h : noNull c = true) :
    shallowCloneList (c :: cs) = shallowCloneN c :: shallowCloneList cs := by
  cases c <;> try rfl
  simp [noNull] at h

theorem keepNonNull_cons_nonnull (c : Node) (cs : List Node) (h : noNull c = true) :
    keepNonNull (c :: cs) = c :: keepNonNull cs := by
  cases c <;> try rfl
  simp [noNull] at h

theorem keepNonNull_id : ∀ l : List Node, noNullList l = true → keepNonNull l = l
  | [], _ => rfl
  | c :: cs, h => by
    rcases (Bool.and_eq_true _ _).mp h with ⟨h1, h2⟩
    rw [keepNonNull_cons_nonnull c cs h1, keepNonNull_id cs h2]

mutual
theorem hashN_clone : ∀ n : Node, noNull n = true → hashN (cloneN n) = hashN n
  | .dict ch p, h => by
    have hl : noNullList ch = true := by simpa [noNull] using h
    simp [cloneN, hashN, hashConcat_clone ch hl]
  | .list ch p, h => by
    have hl : noNullList ch = true := by simpa [noNull] using h
    simp [cloneN, hashN, hashConcat_clone ch hl]
  | .key nm v c, h => by
    cases v with
    | none => rfl
    | some x =>
      have hx : noNull x = true := by simpa [noNull] using h
      simp [cloneN, hashN, hashN_clone x hx]
  | .strV s p, _ => rfl
  | .intV i p, _ => rfl
  | .uintV u p, _ => rfl
  | .floatV f p, _ => rfl
  | .boolV b p, _ => rfl
  | .null, h => by simp [noNull] at h
theorem hashConcat_clone : ∀ l : List Node, noNullList l = true →
    hashConcat (cloneList l) = hashConcat l
  | [], _ => rfl
  | c :: cs, h => by
    rcases (Bool.and_eq_true _ _).mp h with ⟨h1, h2⟩
    rw [cloneList_cons_nonnull c cs h1]
    simp [hashConcat, hashN_clone c h1, hashConcat_clone cs h2]
end

mutual
theorem hashN_shallow : ∀ n : Node, noNull n = true → hashN (shallowCloneN n) = hashN n
  | .dict ch p, h => by
    have hl : noNullList ch = true := by simpa [noNull] using h
    simp [shallowCloneN, hashN, hashConcat_shallow ch hl]
  | .list ch p, h => by
    have hl : noNullList ch = true := by simpa [noNull] using h
    simp [shallowCloneN, hashN, keepNonNull_id ch hl]
  | .key nm v c, h => by cases v <;> rfl
  | .strV s p, _ => rfl
  | .intV i p, _ => rfl
  | .uintV u p, _ => rfl
  | .floatV f p, _ => rfl
  | .boolV b p, _ => rfl
  | .null, h => by simp [noNull] at h
theorem hashConcat_shallow : ∀ l : List Node, noNullList l = true →
    hashConcat (shallowCloneList l) = hashConcat l
  | [], _ => rfl
  | c :: cs, h => by
    rcases (Bool.and_eq_true _ _).mp h with ⟨h1, h2⟩
    rw [shallowCloneList_cons_nonnull c cs h1]
    simp [hashConcat, hashN_shallow c h1, hashConcat_shallow cs h2]
end

mutual
theorem feed64_clone : ∀ n : Node, noNull n = true → feed64 (cloneN n) = feed64 n
  | .dict ch p, h => by
    have hl : noNullList ch = true := by simpa [noNull] using h
    simp [cloneN, feed64, feedConcat_clone ch hl]
  | .list ch p, h => by
    have hl : noNullList ch = true := by simpa [noNull] using h
    simp [cloneN, feed64, feedConcat_clone ch hl]
  | .key nm v c, h => by
    cases v with
    | none => rfl
    | some x =>
      have hx : noNull x = true := by simpa [noNull] using h
      simp [cloneN, feed64, feed64_clone x hx]
  | .strV s p, _ => rfl
  | .intV i p, _ => rfl
  | .uintV u p, _ => rfl
  | .floatV f p, _ => rfl
  | .boolV b p, _ => rfl
  | .null, h => by simp [noNull] at h
theorem feedConcat_clone : ∀ l : List Node, noNullList l = true →
    feedConcat (cloneList l) = feedConcat l
  | [], _ => rfl
  | c :: cs, h => by
    rcases (Bool.and_eq_true _ _).mp h with ⟨h1, h2⟩
    rw [cloneList_cons_nonnull c cs h1]
    simp [feedConcat, feed64_clone c h1, feedConcat_clone cs h2]
end

mutual
theorem feed64_shallow : ∀ n : Node, noNull n = true → feed64 (shallowCloneN n) = feed64 n
  | .dict ch p, h => by
    have hl : noNullList ch = true := by simpa [noNull] using h
    simp [shallowCloneN, feed64, feedConcat_shallow ch hl]
  | .list ch p, h => by
    have hl : noNullList ch = true := by simpa [noNull] using h
    simp [shallowCloneN, feed64, keepNonNull_id ch hl]
  | .key nm v c, h => by cases v <;> rfl
  | .strV s p, _ => rfl
  | .intV i p, _ => rfl
  | .uintV u p, _ => rfl
  | .floatV f p, _ => rfl
  | .boolV b p, _ => rfl
  | .null, h => by simp [noNull] at h
theorem feedConcat_shallow : ∀ l : List Node, noNullList l = true →
    feedConcat (shallowCloneList l) = feedConcat l
  | [], _ => rfl
  | c :: cs, h => by
    rcases (Bool.and_eq_true _ _).mp h with ⟨h1, h2⟩
    rw [shallowCloneList_cons_nonnull c cs h1]
    simp [feedConcat, feed64_shallow c h1, feedConcat_shallow cs h2]
end

/-- C8: cloning preserves both hashes.  On any tree free of Go nil children
(where hashing is defined; a nil child makes the source panic), the strong
hash and the fast-hash byte stream (which determines the xxhash-64 value)
of Clone and of ShallowClone equal those of the original tree. -/
theorem c8_clone_hash (t : Node) (h : noNull t = true) :
    hashN (cloneN t) = hashN t ∧ hashN (shallowCloneN t) = hashN t ∧
    feed64 (cloneN t) = feed64 t ∧ feed64 (shallowCloneN t) = feed64 t :=
  ⟨hashN_clone t h, hashN_shallow t h, feed64_clone t h, feed64_shallow t h⟩

/-- C8 witness: a concrete tree exercising Dict, Key, List and scalars. -/
theorem c8_clone_hash_witness :
    (noNull (.dict [.key "a" (some (.list [.intV 3 none, .strV "x" (some [1])] (some [2]))) (some "c")] none) = true) ∧
    hashN (cloneN (.dict [.key "a" (some (.list [.intV 3 none, .strV "x" (some [1])] (some [2]))) (some "c")] none)) =
      hashN (.dict [.key "a" (some (.list [.intV 3 none, .strV "x" (some [1])] (some [2]))) (some "c")] none) :=
  ⟨by decide,
   (c8_clone_hash (.dict [.key "a" (some (.list [.intV 3 none, .strV "x" (some [1])] (some [2]))) (some "c")] none)
     (by decide)).1⟩

/-! ## Claim C5 -/

mutual
/-- Erases every memoized condition slot in the tree. -/
def stripCond : Node → Node
  | .dict ch p => .dict (stripCondList ch) p
  | .list ch p => .list (stripCondList ch) p
  | .key nm v _ =>
    match v with
    | some x => .key nm (some (stripCond x)) none
    | none => .key nm none none
  | .strV s p => .strV s p
  | .intV i p => .intV i p
  | .uintV u p => .uintV u p
  | .floatV f p => .floatV f p
  | .boolV b p => .boolV b p
  | .null => .null
def stripCondList : List Node → List Node
  | [] => []
  | c :: cs => stripCond c :: stripCondList cs
end

mutual
theorem applyN_source_strip : ∀ (n : Node) (vs : Vars),
    stripCond (applyN n vs).2 = stripCond n
  | .strV s p, vs => rfl
  | .intV i p, vs => rfl
  | .uintV u p, vs => rfl
  | .floatV f p, vs => rfl
  | .boolV b p, vs => rfl
  | .null, vs => rfl
  | .dict ch p, vs => by
    have hl := applyDictCh_source_strip ch vs
    rcases happ : applyDictCh ch vs with ⟨res, ch2⟩
    rw [happ] at hl
    rcases res with e | o
    · simp [applyN, happ, stripCond, hl]
    · rcases o with _ | ns <;> simp [applyN, happ, stripCond, hl]
  | .list ch p, vs => by
    have hl := applyList_source_strip ch vs
    rcases happ : applyList ch vs with ⟨res, ch2⟩
    rw [happ] at hl
    rcases res with e | ns <;> simp [applyN, happ, stripCond, hl]
  | .key nm v c, vs => by
    cases v with
    | none => rfl
    | some val =>
      by_cases hnm : nm = "condition"
      · cases val with
        | strV s p =>
          cases c with
          | none =>
            rcases hcomp : vs.compile s with e | ex
            · simp [applyN, hnm, hcomp, stripCond]
            · rcases heval : vs.evalE ex with e | b <;>
                simp [applyN, hnm, hcomp, heval, stripCond]
          | some ex =>
            rcases heval : vs.evalE ex with e | b <;>
              simp [applyN, hnm, heval, stripCond]
        | boolV b p => simp [applyN, hnm, stripCond]
        | dict ch p => simp [applyN, hnm, stripCond]
        | list ch p => simp [applyN, hnm, stripCond]
        | key knm kv kc => simp [applyN, hnm, stripCond]
        | intV i p => simp [applyN, hnm, stripCond]
        | uintV u p => simp [applyN, hnm, stripCond]
        | floatV f p => simp [applyN, hnm, stripCond]
        | null => simp [applyN, hnm, stripCond]
      · have hv := applyN_source_strip val vs
        rcases happ : applyN val vs with ⟨res, val2⟩
        rw [happ] at hv
        rcases res with e | o
        · simp [applyN, hnm, happ, stripCond, hv]
        · rcases o with _ | nv <;> simp [applyN, hnm, happ, stripCond, hv]
theorem applyList_source_strip : ∀ (l : List Node) (vs : Vars),
    stripCondList (applyList l vs).2 = stripCondList l
  | [], vs => rfl
  | v :: rest, vs => by
    have hv := applyN_source_strip v vs
    rcases happ : applyN v vs with ⟨res, v2⟩
    rw [happ] at hv
    rcases res with e | r
    · simp [applyList, happ, stripCondList, hv]
    · have hrest := applyList_source_strip rest vs
      rcases happ2 : applyList rest vs with ⟨res2, rest2⟩
      rw [happ2] at hrest
      rcases res2 with e2 | ns
      · simp [applyList, happ, happ2, stripCondList, hv, hrest]
      · rcases r with _ | n <;> simp [applyList, happ, happ2, stripCondList, hv, hrest]
theorem applyDictCh_source_strip : ∀ (l : List Node) (vs : Vars),
    stripCondList (applyDictCh l vs).2 = stripCondList l
  | [], vs => rfl
  | v :: rest, vs => by
    cases v with
    | key knm kv kc =>
      have hv := applyN_source_strip (.key knm kv kc) vs
      rcases happ : applyN (.key knm kv kc) vs with ⟨res, v2⟩
      rw [happ] at hv
      rcases res with e | r
      · simp [applyDictCh, happ, stripCondList, hv]
      · rcases r with _ | n
        · have hrest := applyDictCh_source_strip rest vs
          rcases happ2 : applyDictCh rest vs with ⟨res2, rest2⟩
          rw [happ2] at hrest
          rcases res2 with e2 | o <;>
            simp [applyDictCh, happ, happ2, stripCondList, hv, hrest]
        · by_cases hknm : knm = "condition"
          · subst hknm
            rcases hcb : condBool n with _ | b
            · simp [applyDictCh, happ, hcb, stripCondList, hv]
            · cases b with
              | false => simp [applyDictCh, happ, hcb, stripCondList, hv]
              | true =>
                have hrest := applyDictCh_source_strip rest vs
                rcases happ2 : applyDictCh rest vs with ⟨res2, rest2⟩
                rw [happ2] at hrest
                rcases res2 with e2 | o <;>
                  simp [applyDictCh, happ, happ2, hcb, stripCondList, hv, hrest]
          · have hrest := applyDictCh_source_strip rest vs
            rcases happ2 : applyDictCh rest vs with ⟨res2, rest2⟩
            rw [happ2] at hrest
            rcases res2 with e2 | o
            · simp [applyDictCh, happ, happ2, hknm, stripCondList, hv, hrest]
            · rcases o with _ | ns <;>
                simp [applyDictCh, happ, happ2, hknm, stripCondList, hv, hrest]
    | dict ch p => rfl
    | list ch p => rfl
    | strV s p => rfl
    | intV i p => rfl
    | uintV u p => rfl
    | floatV f p => rfl
    | boolV b p => rfl
    | null => rfl
end

/-- C5 amended: Apply returns fresh nodes and leaves the input unchanged
except for the memoized condition slot: applying a KeyedEntry named
condition with a string value compiles the expression and stores it into
the source entry's condition field (the source mutates its receiver).  With
all condition slots erased, the source before and after any Apply is
identical; no other field ever changes. -/
theorem c5_apply_preserves_source_amended (n : Node) (vs : Vars) :
    stripCond (applyN n vs).2 = stripCond n :=
  applyN_source_strip n vs

/-- The memoized condition slot of a KeyedEntry. -/
def condSlot : Node → Option String
  | .key _ _ c => c
  | _ => none

/-- A concrete Vars whose compiler returns the source as the compiled form
and whose evaluator always yields true. -/
def c5Vars : Vars :=
  { replace := fun _ => .ok none, compile := fun s => .ok s, evalE := fun _ => .ok true }

/-- C5 counterexample: applying a condition KeyedEntry holding a string
memoizes the compiled expression into the source entry: its condition field
is nil before the call and set after, so the input node is not left with
every field identical. -/
theorem c5_counterexample :
    condSlot ((applyN (.key "condition" (some (.strV "x" none)) none) c5Vars).2) ≠
      condSlot (.key "condition" (some (.strV "x" none)) none) := by
  decide

/-! ## Claim C9 -/

/-- The value is a BoolVal or a StrVal. -/
def isBoolOrStr : Node → Bool
  | .boolV _ _ => true
  | .strV _ _ => true
  | _ => false

/-- C9: for a KeyedEntry named condition whose value is present but neither
BoolVal nor StrVal, Apply fails with the BadCondition error and mutates
nothing; a BoolVal value is kept as-is (the entry itself is returned); a
StrVal value is compiled (when no compiled form is memoized) and evaluated,
yielding a fresh entry holding the resulting BoolVal while the compiled
form is memoized on the source. -/
theorem c9_condition_value (vs : Vars) (v : Node) (c : Option String) (b : Bool)
    (p q : Procs) (s : String) (ex : String) (bb : Bool) :
    (isBoolOrStr v = false →
      ∃ m, applyKey "condition" (some v) c vs =
        (.error (.badCondition m), .key "condition" (some v) c)) ∧
    (applyKey "condition" (some (.boolV b p)) c vs =
      (.ok (some (.key "condition" (some (.boolV b p)) c)),
       .key "condition" (some (.boolV b p)) c)) ∧
    (c = none → vs.compile s = .ok ex → vs.evalE ex = .ok bb →
      applyKey "condition" (some (.strV s q)) c vs =
        (.ok (some (.key "condition" (some (.boolV bb none)) none)),
         .key "condition" (some (.strV s q)) (some ex))) := by
  refine ⟨?_, by simp [applyKey, applyN], ?_⟩
  · intro h
    cases v <;> simp [isBoolOrStr] at h <;>
      exact ⟨"condition value must be a bool or string", by simp [applyKey, applyN]⟩
  · intro hc hcomp heval
    subst hc
    simp [applyKey, applyN, hcomp, heval]

/-- C9 witness: a concrete dictionary value fails with BadCondition; a
concrete string condition compiles and evaluates to true. -/
theorem c9_condition_value_witness :
    (∃ m, applyKey "condition" (some (.intV 1 none)) none c5Vars =
      (.error (.badCondition m), .key "condition" (some (.intV 1 none)) none)) ∧
    applyKey "condition" (some (.strV "e" none)) none c5Vars =
      (.ok (some (.key "condition" (some (.boolV true none)) none)),
       .key "condition" (some (.strV "e" none)) (some "e")) :=
  have h := c9_condition_value c5Vars (.intV 1 none) none true none none "e" "e" true
  ⟨h.1 (by decide), h.2.2 rfl rfl rfl⟩

/-! ## Claim C3 -/

theorem applyKey_shape (nm : String) (v : Option Node) (c : Option String) (vs : Vars)
    (n src : Node) (h : applyN (.key nm v c) vs = (.ok (some n), src)) :
    ∃ v2 c2, n = .key nm v2 c2 := by
  cases v with
  | none =>
    simp [applyN] at h
    exact ⟨none, c, h.1.symm⟩
  | some val =>
    by_cases hnm : nm = "condition"
    · subst hnm
      cases val with
      | boolV b p =>
        simp [applyN] at h
        exact ⟨some (.boolV b p), c, h.1.symm⟩
      | strV s p =>
        cases c with
        | none =>
          rcases hcomp : vs.compile s with e | ex
          · simp [applyN, hcomp] at h
          · rcases heval : vs.evalE ex with e | b
            · simp [applyN, hcomp, heval] at h
            · simp [applyN, hcomp, heval] at h
              exact ⟨some (.boolV b none), none, h.1.symm⟩
        | some ex =>
          rcases heval : vs.evalE ex with e | b
          · simp [applyN, heval] at h
          · simp [applyN, heval] at h
            exact ⟨some (.boolV b none), none, h.1.symm⟩
      | dict ch p => simp [applyN] at h
      | list ch p => simp [applyN] at h
      | key knm kv kc => simp [applyN] at h
      | intV i p => simp [applyN] at h
      | uintV u p => simp [applyN] at h
      | floatV f p => simp [applyN] at h
      | null => simp [applyN] at h
    · rcases happ : applyN val vs with ⟨res, val2⟩
      rcases res with e | o
      · simp [applyN, hnm, happ] at h
      · rcases o with _ | nv
        · simp [applyN, hnm, happ] at h
        · simp [applyN, hnm, happ] at h
          exact ⟨some nv, none, h.1.symm⟩

theorem applyDictCh_prune (vs : Vars) : ∀ ch : List Node,
    allKeys ch = true →
    (∀ c ∈ ch, ∃ r src, applyN c vs = (.ok r, src)) →
    (∀ c ∈ ch, keyName c = "condition" →
      ∀ r src, applyN c vs = (.ok r, src) → ∃ n bn, r = some n ∧ condBool n = some bn) →
    ((∃ c ∈ ch, keyName c = "condition" ∧
        ∃ n src, applyN c vs = (.ok (some n), src) ∧ condBool n = some false) →
      (applyDictCh ch vs).1 = .ok none) ∧
    ((∀ c ∈ ch, keyName c = "condition" →
        ∀ n src, applyN c vs = (.ok (some n), src) → condBool n = some true) →
      ∃ ns, (applyDictCh ch vs).1 = .ok (some ns) ∧
        (∀ c ∈ ch, keyName c ≠ "condition" →
          ∀ n src, applyN c vs = (.ok (some n), src) → n ∈ ns) ∧
        (∀ y ∈ ns, keyName y ≠ "condition") ∧
        (∀ y ∈ ns, ∃ c ∈ ch, keyName c ≠ "condition" ∧
          ∃ src, applyN c vs = (.ok (some y), src)))
  | [] => by
    intro _ _ _
    constructor
    · rintro ⟨c, hc, _⟩; cases hc
    · intro _
      exact ⟨[], rfl, fun c hc => absurd hc (by simp), fun y hy => absurd hy (by simp),
        fun y hy => absurd hy (by simp)⟩
  | v :: rest => by
    intro hks hok hcond
    have hksv : allKeys rest = true := by
      cases v <;> simp [allKeys] at hks
      exact hks
    rcases v with _ | _ | ⟨knm, kv, kc⟩ | _ | _ | _ | _ | _ | _
    case dict => simp [allKeys] at hks
    case list => simp [allKeys] at hks
    case strV => simp [allKeys] at hks
    case intV => simp [allKeys] at hks
    case uintV => simp [allKeys] at hks
    case floatV => simp [allKeys] at hks
    case boolV => simp [allKeys] at hks
    case null => simp [allKeys] at hks
    have hokr : ∀ c ∈ rest, ∃ r src, applyN c vs = (.ok r, src) :=
      fun c hc => hok c (List.mem_cons_of_mem _ hc)
    have hcondr : ∀ c ∈ rest, keyName c = "condition" →
        ∀ r src, applyN c vs = (.ok r, src) → ∃ n bn, r = some n ∧ condBool n = some bn :=
      fun c hc => hcond c (List.mem_cons_of_mem _ hc)
    have ih := applyDictCh_prune vs rest hksv hokr hcondr
    rcases hok (.key knm kv kc) (List.mem_cons_self _ _) with ⟨r, src, happ⟩
    rcases happ2 : applyDictCh rest vs with ⟨res2, rest2⟩
    rcases r with _ | n
    · -- head applied to the absent sentinel: it is skipped
      constructor
      · rintro ⟨c, hc, hcn, n, src2, happc, hfalse⟩
        have hcr : c ∈ rest := by
          rcases List.mem_cons.mp hc with rfl | hcr
          · rw [happ] at happc; simp at happc
          · exact hcr
        have h1 := ih.1 ⟨c, hcr, hcn, n, src2, happc, hfalse⟩
        rw [happ2] at h1
        simp at h1
        subst h1
        simp [applyDictCh, happ, happ2]
      · intro hall
        have hallr : ∀ c ∈ rest, keyName c = "condition" →
            ∀ n src, applyN c vs = (.ok (some n), src) → condBool n = some true :=
          fun c hc => hall c (List.mem_cons_of_mem _ hc)
        rcases ih.2 hallr with ⟨ns, h1, h2, h3, h4⟩
        rw [happ2] at h1
        simp at h1
        subst h1
        refine ⟨ns, by simp [applyDictCh, happ, happ2], ?_, h3, ?_⟩
        · intro c hc hcn n src2 happc
          rcases List.mem_cons.mp hc with rfl | hcr
          · rw [happ] at happc; simp at happc
          · exact h2 c hcr hcn n src2 happc
        · intro y hy
          rcases h4 y hy with ⟨c, hc, hcn, src2, happc⟩
          exact ⟨c, List.mem_cons_of_mem _ hc, hcn, src2, happc⟩
    · by_cases hknm : knm = "condition"
      · subst hknm
        rcases hcond _ (List.mem_cons_self _ _) rfl _ _ happ with ⟨n2, bn, hn2, hcb⟩
        obtain rfl : n2 = n := (Option.some.inj hn2).symm
        cases bn with
        | false =>
          constructor
          · intro _
            simp [applyDictCh, happ, hcb]
          · intro hall
            have := hall _ (List.mem_cons_self _ _) rfl n2 src happ
            rw [hcb] at this
            simp at this
        | true =>
          constructor
          · rintro ⟨c, hc, hcn, n3, src2, happc, hfalse⟩
            have hcr : c ∈ rest := by
              rcases List.mem_cons.mp hc with rfl | hcr
              · rw [happ] at happc
                simp at happc
                rw [← happc.1, hcb] at hfalse
                simp at hfalse
              · exact hcr
            have h1 := ih.1 ⟨c, hcr, hcn, n3, src2, happc, hfalse⟩
            rw [happ2] at h1
            simp at h1
            subst h1
            simp [applyDictCh, happ, hcb, happ2]
          · intro hall
            have hallr : ∀ c ∈ rest, keyName c = "condition" →
                ∀ n src, applyN c vs = (.ok (some n), src) → condBool n = some true :=
              fun c hc => hall c (List.mem_cons_of_mem _ hc)
            rcases ih.2 hallr with ⟨ns, h1, h2, h3, h4⟩
            rw [happ2] at h1
            simp at h1
            subst h1
            refine ⟨ns, by simp [applyDictCh, happ, hcb, happ2], ?_, h3, ?_⟩
            · intro c hc hcn n3 src2 happc
              rcases List.mem_cons.mp hc with rfl | hcr
              · exact absurd rfl hcn
              · exact h2 c hcr hcn n3 src2 happc
            · intro y hy
              rcases h4 y hy with ⟨c, hc, hcn, src2, happc⟩
              exact ⟨c, List.mem_cons_of_mem _ hc, hcn, src2, happc⟩
      · -- ordinary entry: its applied node is appended
        constructor
        · rintro ⟨c, hc, hcn, n3, src2, happc, hfalse⟩
          have hcr : c ∈ rest := by
            rcases List.mem_cons.mp hc with rfl | hcr
            · exact absurd hcn (by simpa [keyName] using hknm)
            · exact hcr
          have h1 := ih.1 ⟨c, hcr, hcn, n3, src2, happc, hfalse⟩
          rw [happ2] at h1
          simp at h1
          subst h1
          simp [applyDictCh, happ, hknm, happ2]
        · intro hall
          have hallr : ∀ c ∈ rest, keyName c = "condition" →
              ∀ n src, applyN c vs = (.ok (some n), src) → condBool n = some true :=
            fun c hc => hall c (List.mem_cons_of_mem _ hc)
          rcases ih.2 hallr with ⟨ns, h1, h2, h3, h4⟩
          rw [happ2] at h1
          simp at h1
          subst h1
          refine ⟨n :: ns, by simp [applyDictCh, happ, hknm, happ2], ?_, ?_, ?_⟩
          · intro c hc hcn n3 src2 happc
            rcases List.mem_cons.mp hc with rfl | hcr
            · rw [happ] at happc
              simp at happc
              rw [← happc.1]
              exact List.mem_cons_self _ _
            · exact List.mem_cons_of_mem _ (h2 c hcr hcn n3 src2 happc)
          · intro y hy
            rcases List.mem_cons.mp hy with rfl | hy
            · rcases applyKey_shape knm kv kc vs y src happ with ⟨v2, c2, rfl⟩
              simpa [keyName] using hknm
            · exact h3 y hy
          · intro y hy
            rcases List.mem_cons.mp hy with rfl | hy
            · exact ⟨.key knm kv kc, List.mem_cons_self _ _,
                by simpa [keyName] using hknm, src, happ⟩
            · rcases h4 y hy with ⟨c, hc, hcn, src2, happc⟩
              exact ⟨c, List.mem_cons_of_mem _ hc, hcn, src2, happc⟩

/-- C3: Dict.Apply on a Mapping whose children are KeyedEntries that all
apply successfully (conditions applying to boolean nodes): if some
condition entry applies to false, the whole Mapping applies to the absent
sentinel (so the parent KeyedEntry prunes its sub-tree, Key.Apply mapping
an absent child to the absent sentinel); if every condition entry applies
to true, the result is a Mapping containing the applied node of every other
entry that did not itself vanish, and never containing a condition key. -/
theorem c3_condition_pruning (ch : List Node) (p : Procs) (vs : Vars)
    (hks : allKeys ch = true)
    (hok : ∀ c ∈ ch, ∃ r src, applyN c vs = (.ok r, src))
    (hcond : ∀ c ∈ ch, keyName c = "condition" →
      ∀ r src, applyN c vs = (.ok r, src) → ∃ n bn, r = some n ∧ condBool n = some bn) :
    ((∃ c ∈ ch, keyName c = "condition" ∧
        ∃ n src, applyN c vs = (.ok (some n), src) ∧ condBool n = some false) →
      (applyN (.dict ch p) vs).1 = .ok none) ∧
    ((∀ c ∈ ch, keyName c = "condition" →
        ∀ n src, applyN c vs = (.ok (some n), src) → condBool n = some true) →
      ∃ ns, (applyN (.dict ch p) vs).1 = .ok (some (.dict ns none)) ∧
        (∀ c ∈ ch, keyName c ≠ "condition" →
          ∀ n src, applyN c vs = (.ok (some n), src) → n ∈ ns) ∧
        (∀ y ∈ ns, keyName y ≠ "condition") ∧
        (∀ y ∈ ns, ∃ c ∈ ch, keyName c ≠ "condition" ∧
          ∃ src, applyN c vs = (.ok (some y), src))) := by
  have h := applyDictCh_prune vs ch hks hok hcond
  constructor
  · intro hex
    have h1 := h.1 hex
    rcases happ : applyDictCh ch vs with ⟨res, ch2⟩
    rw [happ] at h1
    simp at h1
    subst h1
    simp [applyN, happ]
  · intro hall
    rcases h.2 hall with ⟨ns, h1, h2, h3, h4⟩
    rcases happ : applyDictCh ch vs with ⟨res, ch2⟩
    rw [happ] at h1
    simp at h1
    subst h1
    exact ⟨ns, by simp [applyN, happ], h2, h3, h4⟩

def c3CondKey : Node := .key "condition" (some (.boolV false none)) none

def c3XKey : Node := .key "x" (some (.intV 1 none)) none

/-- C3 witness: a concrete Mapping holding condition: false and x: 1
applies to the absent sentinel. -/
theorem c3_condition_pruning_witness :
    (applyN (.dict [c3CondKey, c3XKey] none) c5Vars).1 = .ok none := by
  have h := c3_condition_pruning [c3CondKey, c3XKey] none c5Vars (by decide) ?hok ?hcond
  · exact h.1 ⟨c3CondKey, List.mem_cons_self _ _, rfl, c3CondKey, c3CondKey, rfl, rfl⟩
  case hok =>
    intro c hc
    rcases List.mem_cons.mp hc with rfl | hc
    · exact ⟨some c3CondKey, c3CondKey, rfl⟩
    rcases List.mem_cons.mp hc with rfl | hc
    · exact ⟨some c3XKey, c3XKey, rfl⟩
    · cases hc
  case hcond =>
    intro c hc hn r src happ
    rcases List.mem_cons.mp hc with rfl | hc
    · rw [show applyN c3CondKey c5Vars = (.ok (some c3CondKey), c3CondKey) from rfl] at happ
      have hr : (Except.ok (some c3CondKey) : Except AErr (Option Node)) = .ok r :=
        congrArg Prod.fst happ
      simp at hr
      exact ⟨c3CondKey, false, hr.symm, rfl⟩
    rcases List.mem_cons.mp hc with rfl | hc
    · simp [c3XKey, keyName] at hn
    · cases hc

/-! ## Loader characterization on dot-free inputs (claims C2 and C4) -/

/-- Go map lookup on the native entry list (first binding; a miss yields
nil, which loads to the same node as a nil value). -/
def lookupNV : List (String × NVal) → String → NVal
  | [], _ => .nil
  | (k, v) :: rest, nm => if k = nm then v else lookupNV rest nm

/-- Materialization through the loader's Option (a Go nil node becomes nil). -/
def matOpt : Option Node → NVal
  | some n => materialize n
  | none => .nil

def dictsSortedOpt : Option Node → Bool
  | some n => dictsSorted n
  | none => true

def goodOpt : Option Node → Prop
  | _ => True

theorem keyNotIn_iff : ∀ es : List (String × NVal), ∀ k,
    keyNotIn k es = true ↔ ∀ p ∈ es, ¬ (p.1 = k)
  | [], k => by simp [keyNotIn]
  | (k2, v) :: es, k => by
    have hrec := keyNotIn_iff es k
    constructor
    · intro h p hp
      rcases (Bool.and_eq_true _ _).mp h with ⟨h1, h2⟩
      rcases List.mem_cons.mp hp with rfl | hp
      · intro he
        have he2 : k2 = k := he
        rw [he2] at h1
        simp at h1
      · exact hrec.mp h2 p hp
    · intro h
      have h1 : ¬ (k2 = k) := fun he => h (k2, v) (List.mem_cons_self _ _) he
      have h2 := hrec.mpr (fun p hp => h p (List.mem_cons_of_mem _ hp))
      show (!(k == k2) && keyNotIn k es) = true
      rw [h2]
      simp
      exact fun he => h1 he.symm

theorem goodEntries_tail {k : String} {v : NVal} {es : List (String × NVal)}
    (h : goodEntries ((k, v) :: es) = true) :
    splitDots k = [k] ∧ keyNotIn k es = true ∧ goodV v = true ∧ goodEntries es = true := by
  have h0 : goodEntries ((k, v) :: es) =
      ((splitDots k == [k]) && keyNotIn k es && goodV v && goodEntries es) := rfl
  rw [h0] at h
  rcases (Bool.and_eq_true _ _).mp h with ⟨h123, h4⟩
  rcases (Bool.and_eq_true _ _).mp h123 with ⟨h12, h3⟩
  rcases (Bool.and_eq_true _ _).mp h12 with ⟨h1, h2⟩
  exact ⟨by simpa using h1, h2, h3, h4⟩

theorem goodEntries_nodupKeys : ∀ es : List (String × NVal), goodEntries es = true →
    List.Pairwise (fun a b : String => ¬ (a = b)) (es.map Prod.fst)
  | [], _ => by simp
  | (k, v) :: es, h => by
    rcases goodEntries_tail h with ⟨_, h2, _, h4⟩
    refine List.pairwise_cons.mpr ⟨?_, goodEntries_nodupKeys es h4⟩
    intro b hb he
    rcases List.mem_map.mp hb with ⟨p, hp, rfl⟩
    exact (keyNotIn_iff es k).mp h2 p hp (show k = p.1 from he).symm

theorem goodEntries_dotfree : ∀ es : List (String × NVal), goodEntries es = true →
    ∀ p ∈ es, splitDots p.1 = [p.1]
  | [], _, p, hp => absurd hp (by simp)
  | (k, v) :: es, h, p, hp => by
    rcases goodEntries_tail h with ⟨h1, _, _, h4⟩
    rcases List.mem_cons.mp hp with rfl | hp
    · exact h1
    · exact goodEntries_dotfree es h4 p hp

theorem goodEntries_lookup_good : ∀ es : List (String × NVal), goodEntries es = true →
    ∀ nm, goodV (lookupNV es nm) = true
  | [], _, nm => rfl
  | (k, v) :: es, h, nm => by
    rcases goodEntries_tail h with ⟨_, _, h3, h4⟩
    by_cases hk : k = nm
    · simp [lookupNV, hk, h3]
    · simp [lookupNV, hk]
      exact goodEntries_lookup_good es h4 nm

theorem lookupNV_eq_of_nodup : ∀ es : List (String × NVal),
    List.Pairwise (fun a b : String => ¬ (a = b)) (es.map Prod.fst) →
    ∀ p ∈ es, lookupNV es p.1 = p.2
  | [], _, p, hp => absurd hp (by simp)
  | (k, v) :: es, h, p, hp => by
    rcases List.pairwise_cons.mp h with ⟨h1, h2⟩
    rcases List.mem_cons.mp hp with rfl | hp
    · simp [lookupNV]
    · have hk : ¬ (k = p.1) := h1 p.1 (List.mem_map.mpr ⟨p, hp, rfl⟩)
      simp [lookupNV, hk]
      exact lookupNV_eq_of_nodup es h2 p hp

theorem loadEntries_fst : ∀ es : List (String × NVal),
    (loadEntries es).map Prod.fst = es.map Prod.fst
  | [] => rfl
  | (k, v) :: es => by simp [loadEntries, loadEntries_fst es]

theorem lookupEntry_loadEntries : ∀ (es : List (String × NVal)) (nm : String),
    lookupEntry (loadEntries es) nm = load (lookupNV es nm)
  | [], nm => rfl
  | (k, v) :: es, nm => by
    by_cases hk : k = nm <;>
      simp [loadEntries, lookupEntry, lookupNV, hk, lookupEntry_loadEntries es nm]

theorem loadDotted_isDict (x : Node) : ∀ (keys : List String) (acc : List Node),
    ∃ ch, loadDotted (.dict acc none) keys x = .dict ch none
  | [], acc => ⟨acc, rfl⟩
  | k :: rest, acc => by
    rcases hf : findN (.dict acc none) k with _ | n
    · exact ⟨acc ++ [.key k (some (restDictOf rest x)) none], by simp [loadDotted, hf, attach]⟩
    · exact ⟨replaceFirstNamed acc k (hatt n k rest x), by simp [loadDotted, hf, setFound]⟩

theorem loadStep_isDict (nm : String) (v : Option Node) (acc : List Node) :
    ∃ ch, loadStep (.dict acc none) nm v = .dict ch none := by
  by_cases hd : isDictOrKey v = true
  · rcases v with _ | x
    · simp [isDictOrKey] at hd
    · rcases loadDotted_isDict x (splitDots nm) acc with ⟨ch, h⟩
      exact ⟨ch, by simp [loadStep, hd, h]⟩
  · have hd2 : isDictOrKey v = false := by
      revert hd
      cases isDictOrKey v <;> simp
    exact ⟨acc ++ [.key nm v none], by simp [loadStep, hd2, appendKey]⟩

theorem loadFold_isDict (les : List (String × Option Node)) :
    ∀ (names : List String) (acc : List Node),
    ∃ ch, List.foldl (fun root nm => loadStep root nm (lookupEntry les nm))
      (.dict acc none) names = .dict ch none
  | [], acc => ⟨acc, rfl⟩
  | nm :: names, acc => by
    rcases loadStep_isDict nm (lookupEntry les nm) acc with ⟨ch2, h2⟩
    rcases loadFold_isDict les names ch2 with ⟨ch3, h3⟩
    exact ⟨ch3, by rw [List.foldl_cons, h2, h3]⟩

theorem load_map_shape (es : List (String × NVal)) :
    ∃ ch, load (.map es) = some (.dict ch none) := by
  rcases loadFold_isDict (loadEntries es)
    (sortStrs ((loadEntries es).map Prod.fst)) [] with ⟨ch, h⟩
  exact ⟨ch, by simp [load, loadMapFromLoaded, h]⟩

theorem loadStep_append (acc : List Node) (nm : String) (nv : NVal)
    (hdot : splitDots nm = [nm])
    (hfresh : ∀ c ∈ acc, ¬ (keyName c = nm)) :
    loadStep (.dict acc none) nm (load nv) = .dict (acc ++ [.key nm (load nv) none]) none := by
  have hf : findN (.dict acc none) nm = none := by
    simp [findN]
    exact (findIn_eq_none acc nm).mpr hfresh
  cases nv with
  | map es =>
    rcases load_map_shape es with ⟨ch0, h0⟩
    rw [h0]
    simp [loadStep, isDictOrKey, hdot, loadDotted, hf, attach, restDictOf]
  | arr xs => simp [loadStep, load, isDictOrKey, appendKey]
  | str s => simp [loadStep, load, isDictOrKey, appendKey]
  | int i => simp [loadStep, load, isDictOrKey, appendKey]
  | uint u => simp [loadStep, load, isDictOrKey, appendKey]
  | float f => simp [loadStep, load, isDictOrKey, appendKey]
  | bool b => simp [loadStep, load, isDictOrKey, appendKey]
  | nil => simp [loadStep, load, isDictOrKey, appendKey]

theorem loadFold_append (les : List (String × Option Node)) (W : String → NVal)
    (hW : ∀ nm, lookupEntry les nm = load (W nm)) :
    ∀ (names : List String) (acc : List Node),
    (∀ nm ∈ names, splitDots nm = [nm]) →
    List.Pairwise (fun a b : String => ¬ (a = b)) names →
    (∀ nm ∈ names, ∀ c ∈ acc, ¬ (keyName c = nm)) →
    List.foldl (fun root nm => loadStep root nm (lookupEntry les nm)) (.dict acc none) names =
      .dict (acc ++ names.map (fun nm => .key nm (lookupEntry les nm) none)) none
  | [], acc, _, _, _ => by simp
  | nm :: names, acc, hdot, hnd, hfresh => by
    rcases List.pairwise_cons.mp hnd with ⟨hnd1, hnd2⟩
    rw [List.foldl_cons, hW nm,
      loadStep_append acc nm (W nm) (hdot nm (List.mem_cons_self _ _))
        (fun c hc => hfresh nm (List.mem_cons_self _ _) c hc)]
    have hfresh2 : ∀ nm2 ∈ names, ∀ c ∈ acc ++ [Node.key nm (load (W nm)) none],
        ¬ (keyName c = nm2) := by
      intro nm2 hnm2 c hc
      rcases List.mem_append.mp hc with hc | hc
      · exact hfresh nm2 (List.mem_cons_of_mem _ hnm2) c hc
      · rcases List.mem_singleton.mp hc with rfl
        intro he
        exact hnd1 nm2 hnm2 (by simpa [keyName] using he)
    rw [loadFold_append les W hW names (acc ++ [Node.key nm (load (W nm)) none])
      (fun n2 h2 => hdot n2 (List.mem_cons_of_mem _ h2)) hnd2 hfresh2]
    rw [← hW nm]
    simp

theorem newAST_good (es : List (String × NVal)) (h : goodEntries es = true) :
    newAST es = .dict ((sortStrs (es.map Prod.fst)).map
      (fun nm => .key nm (load (lookupNV es nm)) none)) none := by
  have hnd : List.Pairwise (fun a b : String => ¬ (a = b)) (es.map Prod.fst) :=
    goodEntries_nodupKeys es h
  have hperm : (sortStrs (es.map Prod.fst)).Perm (es.map Prod.fst) :=
    sortBy_perm (fun s => s) (es.map Prod.fst)
  have hnds : List.Pairwise (fun a b : String => ¬ (a = b)) (sortStrs (es.map Prod.fst)) :=
    (hperm.pairwise_iff (fun hab => fun he => hab he.symm)).mpr hnd
  have hdots : ∀ nm ∈ sortStrs (es.map Prod.fst), splitDots nm = [nm] := by
    intro nm hnm
    rcases List.mem_map.mp (hperm.mem_iff.mp hnm) with ⟨p, hp, rfl⟩
    exact goodEntries_dotfree es h p hp
  show List.foldl (fun root nm => loadStep root nm (lookupEntry (loadEntries es) nm))
      (.dict [] none) (sortStrs ((loadEntries es).map Prod.fst)) = _
  rw [loadEntries_fst es]
  rw [loadFold_append (loadEntries es) (lookupNV es) (lookupEntry_loadEntries es)
    (sortStrs (es.map Prod.fst)) [] hdots hnds (by simp)]
  simp only [List.nil_append]
  congr 1
  exact List.map_congr_left (fun nm _ => by rw [lookupEntry_loadEntries es nm])

theorem matEntries_map_keys (w : String → Option Node) (l : List String) :
    matEntries (l.map (fun nm => Node.key nm (w nm) none)) =
      l.map (fun nm => (nm, matOpt (w nm))) := by
  induction l with
  | nil => rfl
  | cons nm l ih =>
    rw [List.map_cons, List.map_cons, ← ih]
    generalize w nm = o
    cases o <;> rfl

theorem sortKEntries_eq_map : ∀ es : List (String × NVal),
    sortKEntries es = es.map (fun p => (p.1, sortK p.2))
  | [] => rfl
  | (k, v) :: es => by simp [sortKEntries, sortKEntries_eq_map es]

theorem sortedMapKeys_eq_sortPairs (es : List (String × NVal)) (g : NVal → NVal)
    (hnd : List.Pairwise (fun a b : String => ¬ (a = b)) (es.map Prod.fst)) :
    (sortStrs (es.map Prod.fst)).map (fun nm => (nm, g (lookupNV es nm))) =
      sortPairs (es.map (fun p => (p.1, g p.2))) := by
  have hperm0 : (sortStrs (es.map Prod.fst)).Perm (es.map Prod.fst) :=
    sortBy_perm (fun s => s) (es.map Prod.fst)
  have hpoint : es.map (fun p => (p.1, g (lookupNV es p.1))) =
      es.map (fun p => (p.1, g p.2)) :=
    List.map_congr_left (fun p hp => by rw [lookupNV_eq_of_nodup es hnd p hp])
  have hperm : ((sortStrs (es.map Prod.fst)).map
      (fun nm => (nm, g (lookupNV es nm)))).Perm
      (sortPairs (es.map (fun p => (p.1, g p.2)))) := by
    refine (hperm0.map _).trans ?_
    rw [List.map_map]
    have : (fun nm => (nm, g (lookupNV es nm))) ∘ Prod.fst =
        (fun p : String × NVal => (p.1, g (lookupNV es p.1))) := rfl
    rw [this, hpoint]
    exact (sortBy_perm Prod.fst _).symm
  refine eq_of_perm_sortedBy Prod.fst _ _ hperm ?_ ?_ ?_
  · have hs := sortBy_sorted (fun s => s) (es.map Prod.fst)
    exact (List.pairwise_map).mpr hs
  · exact sortBy_sorted Prod.fst _
  · have hnds : List.Pairwise (fun a b : String => ¬ (a = b)) (sortStrs (es.map Prod.fst)) :=
      (hperm0.pairwise_iff (fun hab => fun he => hab he.symm)).mpr hnd
    exact (List.pairwise_map).mpr hnds

mutual
theorem matLoad : ∀ v : NVal, goodV v = true → matOpt (load v) = sortK v
  | .map es, h => by
    have hload : load (.map es) = some (newAST es) := rfl
    rw [hload, show matOpt (some (newAST es)) = materialize (newAST es) from rfl, newAST_good es h]
    show NVal.map (matEntries _) = _
    rw [matEntries_map_keys (fun nm => load (lookupNV es nm)) (sortStrs (es.map Prod.fst))]
    rw [List.map_congr_left
      (fun nm _ => by rw [matLoadLookup es h nm] :
        ∀ nm ∈ sortStrs (es.map Prod.fst),
          (nm, matOpt (load (lookupNV es nm))) = (nm, sortK (lookupNV es nm)))]
    show _ = NVal.map (sortPairs (sortKEntries es))
    rw [sortKEntries_eq_map es,
      sortedMapKeys_eq_sortPairs es sortK (goodEntries_nodupKeys es h)]
  | .arr xs, h => by
    have : matList (loadArr xs) = sortKList xs := matLoadArr xs h
    simp [load, matOpt, materialize, sortK, this]
  | .str s, _ => rfl
  | .int i, _ => rfl
  | .uint u, _ => rfl
  | .float f, _ => rfl
  | .bool b, _ => rfl
  | .nil, _ => rfl
theorem matLoadArr : ∀ xs : List NVal, goodList xs = true → matList (loadArr xs) = sortKList xs
  | [], _ => rfl
  | x :: xs, h => by
    rcases (Bool.and_eq_true _ _).mp h with ⟨h1, h2⟩
    have hx := matLoad x h1
    have hxs := matLoadArr xs h2
    rcases hl : load x with _ | n
    · rw [hl] at hx
      simp [loadArr, hl, matList, sortKList, materialize, ← hx, hxs, matOpt]
    · rw [hl] at hx
      simp [loadArr, hl, matList, sortKList, ← hx, hxs, matOpt]
theorem matLoadLookup : ∀ es : List (String × NVal), goodEntries es = true →
    ∀ nm, matOpt (load (lookupNV es nm)) = sortK (lookupNV es nm)
  | [], _, nm => rfl
  | (k, v) :: es, h, nm => by
    rcases goodEntries_tail h with ⟨_, _, h3, h4⟩
    by_cases hk : k = nm
    · simpa [lookupNV, hk] using matLoad v h3
    · simpa [lookupNV, hk] using matLoadLookup es h4 nm
end

/-! ## Claim C2 -/

/-- The top-level key names of a materialized native mapping. -/
def nvalKeys : NVal → List String
  | .map es => es.map Prod.fst
  | _ => []

/-- C2 counterexample: the input with the single dotted key a.b and scalar
value 1 loads and materializes back to itself, not to the nested form: the
loader only explodes a dotted key whose loaded value is a Mapping or
KeyedEntry, and an integer is neither. -/
theorem c2_counterexample :
    materialize (newAST [("a.b", .int 1)]) = .map [("a.b", .int 1)] ∧
    nvalKeys (materialize (newAST [("a.b", .int 1)])) ≠
      nvalKeys (.map [("a", .map [("b", .int 1)])]) :=
  ⟨rfl, by decide⟩

/-- C2 amended: for every native mapping whose keys are everywhere dot-free
and duplicate-free, materializing the loaded tree returns the input up to
ascending key reordering (it equals the recursive key-sort of the input);
dotted-key explosion happens only for mapping-valued keys, as the concrete
conjunct shows, while scalar-valued dotted keys stay verbatim. -/
theorem c2_round_trip_amended (es : List (String × NVal)) (h : goodEntries es = true) :
    materialize (newAST es) = sortK (.map es) ∧
    materialize (newAST [("a.b", .map [("c", .int 2)])]) =
      .map [("a", .map [("b", .map [("c", .int 2)])])] := by
  constructor
  · have hm := matLoad (.map es) h
    rw [show load (.map es) = some (newAST es) from rfl] at hm
    exact hm
  · rfl

/-- C2 witness: a concrete unsorted dot-free mapping with a nested mapping
round-trips to its key-sorted form. -/
theorem c2_round_trip_amended_witness :
    materialize (newAST [("b", .int 1), ("a", .map [("d", .str "x"), ("c", .nil)])]) =
      sortK (.map [("b", .int 1), ("a", .map [("d", .str "x"), ("c", .nil)])]) :=
  (c2_round_trip_amended [("b", .int 1), ("a", .map [("d", .str "x"), ("c", .nil)])]
    (by decide)).1

/-! ## Claim C4 -/

theorem dictsSortedList_iff : ∀ l : List Node,
    dictsSortedList l = true ↔ ∀ c ∈ l, dictsSorted c = true
  | [] => by simp [dictsSortedList]
  | c :: cs => by
    have hrec := dictsSortedList_iff cs
    constructor
    · intro h x hx
      rcases (Bool.and_eq_true _ _).mp h with ⟨h1, h2⟩
      rcases List.mem_cons.mp hx with rfl | hx
      · exact h1
      · exact hrec.mp h2 x hx
    · intro h
      have h1 : dictsSorted c = true := h c (List.mem_cons_self c cs)
      have h2 := hrec.mpr (fun x hx => h x (List.mem_cons_of_mem c hx))
      show (dictsSorted c && dictsSortedList cs) = true
      rw [h1, h2]
      rfl

theorem dictsSorted_key (nm : String) (v : Option Node) (c : Option String) :
    dictsSorted (.key nm v c) = dictsSortedOpt v := by
  cases v <;> rfl

mutual
theorem load_sorted : ∀ v : NVal, goodV v = true → dictsSortedOpt (load v) = true
  | .map es, h => by
    rw [show load (.map es) = some (newAST es) from rfl,
      show dictsSortedOpt (some (newAST es)) = dictsSorted (newAST es) from rfl,
      newAST_good es h]
    show (sortedNames _ && dictsSortedList _) = true
    have hsn : sortedNames ((sortStrs (es.map Prod.fst)).map
        (fun nm => Node.key nm (load (lookupNV es nm)) none)) = true := by
      refine (sortedNames_iff _).mpr ?_
      refine (List.pairwise_map).mpr ?_
      exact sortBy_sorted (fun s => s) (es.map Prod.fst)
    have hdl : dictsSortedList ((sortStrs (es.map Prod.fst)).map
        (fun nm => Node.key nm (load (lookupNV es nm)) none)) = true := by
      refine (dictsSortedList_iff _).mpr ?_
      intro c hc
      rcases List.mem_map.mp hc with ⟨nm, _, rfl⟩
      rw [dictsSorted_key]
      exact load_sorted_lookup es h nm
    rw [hsn, hdl]
    rfl
  | .arr xs, h => by
    have hl : dictsSortedList (loadArr xs) = true := loadArr_sorted xs h
    simp [load, dictsSortedOpt, dictsSorted, hl]
  | .str s, _ => rfl
  | .int i, _ => rfl
  | .uint u, _ => rfl
  | .float f, _ => rfl
  | .bool b, _ => rfl
  | .nil, _ => rfl
theorem loadArr_sorted : ∀ xs : List NVal, goodList xs = true →
    dictsSortedList (loadArr xs) = true
  | [], _ => rfl
  | x :: xs, h => by
    rcases (Bool.and_eq_true _ _).mp h with ⟨h1, h2⟩
    have hx := load_sorted x h1
    have hxs := loadArr_sorted xs h2
    rcases hl : load x with _ | n
    · simp [loadArr, hl, dictsSortedList, dictsSorted, hxs]
    · rw [hl] at hx
      simp [loadArr, hl, dictsSortedList, hxs]
      exact hx
theorem load_sorted_lookup : ∀ es : List (String × NVal), goodEntries es = true →
    ∀ nm, dictsSortedOpt (load (lookupNV es nm)) = true
  | [], _, nm => rfl
  | (k, v) :: es, h, nm => by
    rcases goodEntries_tail h with ⟨_, _, h3, h4⟩
    by_cases hk : k = nm
    · simpa [lookupNV, hk] using load_sorted v h3
    · simpa [lookupNV, hk] using load_sorted_lookup es h4 nm
end

/-- C4 counterexample: mixing a mapping-valued dotted key with a plain key
breaks ascending order: the dotted-key walk appends an entry named by the
first path segment (a) after the already-present plain key (a-b) without
re-sorting, and a sorts before a-b. -/
theorem c4_counterexample :
    (dictChildren (newAST [("a-b", .int 1), ("a.c", .map [("d", .int 2)])])).map keyName =
      ["a-b", "a"] ∧
    dictsSorted (newAST [("a-b", .int 1), ("a.c", .map [("d", .int 2)])]) = false := by
  exact ⟨by decide, by decide⟩

/-- C4 amended: every Mapping produced by the Loader from a native mapping
whose keys are everywhere dot-free and duplicate-free has its KeyedEntry
children in ascending lexicographic name order, recursively. -/
theorem c4_loader_sorted_amended (es : List (String × NVal)) (h : goodEntries es = true) :
    dictsSorted (newAST es) = true :=
  load_sorted (.map es) h

/-- C4 witness: a concrete dot-free mapping loads to a recursively sorted
tree. -/
theorem c4_loader_sorted_amended_witness :
    dictsSorted (newAST [("b", .int 1), ("a", .map [("d", .int 2), ("c", .nil)])]) = true :=
  c4_loader_sorted_amended [("b", .int 1), ("a", .map [("d", .int 2), ("c", .nil)])] (by decide)

/-! ## Insert: terminal Key-merge characterization (claims C6 and C7) -/

theorem findIdxNamed_none_allKeys : ∀ ch : List Node, allKeys ch = true → ∀ nm,
    findIdxNamed ch nm = none → ∀ c ∈ ch, ¬ (keyName c = nm)
  | [], _, nm, _, c, hc => absurd hc (by simp)
  | c0 :: cs, hks, nm, h, c, hc => by
    rcases c0 with _ | _ | ⟨n, v, cc⟩ | _ | _ | _ | _ | _ | _ <;> simp [allKeys] at hks
    by_cases hn : n = nm
    · simp [findIdxNamed, hn] at h
    · simp only [findIdxNamed, hn, if_false] at h
      rcases List.mem_cons.mp hc with rfl | hc
      · simpa [keyName] using hn
      · rcases hi : findIdxNamed cs nm with _ | j
        · exact findIdxNamed_none_allKeys cs hks nm hi c hc
        · rw [hi] at h; cases h

theorem findIdxNamed_decomp : ∀ (ch : List Node) (nm : String) (i : Nat),
    findIdxNamed ch nm = some i →
    ∃ l₁ v cc l₂, ch = l₁ ++ (Node.key nm v cc) :: l₂ ∧ l₁.length = i
  | [], nm, i, h => by simp [findIdxNamed] at h
  | c0 :: cs, nm, i, h => by
    have step : ∀ j, findIdxNamed cs nm = some j → j + 1 = i →
        ∃ l₁ v cc l₂, c0 :: cs = l₁ ++ (Node.key nm v cc) :: l₂ ∧ l₁.length = i := by
      intro j hi hj
      rcases findIdxNamed_decomp cs nm j hi with ⟨l₁, v2, cc2, l₂, hcs, hlen⟩
      exact ⟨c0 :: l₁, v2, cc2, l₂, by simp [hcs], by simp [hlen, hj]⟩
    rcases hc0 : c0 with _ | _ | ⟨n, v, cc⟩ | _ | _ | _ | _ | _ | _
    case key =>
      subst hc0
      replace h : (if n = nm then some 0
          else (findIdxNamed cs nm).map (· + 1)) = some i := h
      by_cases hn : n = nm
      · rw [if_pos hn] at h
        simp at h
        subst hn
        exact ⟨[], v, cc, cs, rfl, by simp [← h]⟩
      · rw [if_neg hn] at h
        rcases hi : findIdxNamed cs nm with _ | j
        · rw [hi] at h; simp at h
        · rw [hi] at h
          simp at h
          exact step j hi h
    all_goals {
      subst hc0
      replace h : (findIdxNamed cs nm).map (· + 1) = some i := h
      rcases hi : findIdxNamed cs nm with _ | j
      · rw [hi] at h; simp at h
      · rw [hi] at h
        simp at h
        exact step j hi h }

theorem set_append_length : ∀ (l₁ : List Node) (d : Node) (l₂ : List Node) (z : Node),
    (l₁ ++ d :: l₂).set l₁.length z = l₁ ++ z :: l₂
  | [], d, l₂, z => rfl
  | a :: l₁, d, l₂, z => by simp [List.set, set_append_length l₁ d l₂ z]

theorem swapRemove_perm (ch : List Node) (nm : String) (l₁ l₂ : List Node)
    (v : Option Node) (cc : Option String)
    (hch : ch = l₁ ++ (Node.key nm v cc) :: l₂)
    (hidx : findIdxNamed ch nm = some l₁.length) :
    (swapRemoveNamed ch nm).Perm (l₁ ++ l₂) := by
  rcases List.eq_nil_or_concat l₂ with rfl | ⟨l₂', z, rfl⟩
  · have hlast : ch.getLast? = some (Node.key nm v cc) := by
      rw [hch]; exact List.getLast?_concat _
    have hset : ch.set l₁.length (Node.key nm v cc) = ch := by
      rw [hch, set_append_length]
    have hsw : swapRemoveNamed ch nm = l₁ := by
      simp only [swapRemoveNamed, hidx, hlast]
      rw [hset, hch]
      exact List.dropLast_concat
    rw [hsw]
    simp
  · simp only [List.concat_eq_append] at hch
    have hch2 : ch = (l₁ ++ Node.key nm v cc :: l₂') ++ [z] := by
      rw [hch]; simp
    have hlast : ch.getLast? = some z := by
      rw [hch2]; exact List.getLast?_concat _
    have hset : ch.set l₁.length z = (l₁ ++ z :: l₂') ++ [z] := by
      rw [hch, set_append_length]; simp
    have hsw : swapRemoveNamed ch nm = l₁ ++ z :: l₂' := by
      simp only [swapRemoveNamed, hidx, hlast]
      rw [hset]
      exact List.dropLast_concat
    rw [hsw]
    have h1 : (z :: l₂').Perm (l₂' ++ [z]) := (List.perm_append_singleton z l₂').symm
    have h2 := h1.append_left l₁
    simpa [List.concat_eq_append, List.append_assoc] using h2

theorem sortD_eq_of_perm (l l2 : List Node) (hperm : l2.Perm l)
    (hsort : sortedNames l = true) (hnd : nodupNames l = true) : sortD l2 = l := by
  refine eq_of_perm_sortedBy keyName (sortD l2) l ((sortBy_perm keyName l2).trans hperm)
    (sortBy_sorted keyName l2) ((sortedNames_iff l).mp hsort) ?_
  have hl : nodupBy keyName l := (nodupNames_iff l).mp hnd
  exact (((sortBy_perm keyName l2).trans hperm).pairwise_iff
    (fun hab => fun he => hab he.symm)).mpr hl

theorem pairwise_name_facts (l₁ l₂ : List Node) (d : Node)
    (h : nodupBy keyName (l₁ ++ d :: l₂)) :
    (∀ y ∈ l₁ ++ l₂, ¬ (keyName y = keyName d)) ∧ nodupBy keyName (l₁ ++ l₂) := by
  rcases List.pairwise_append.mp h with ⟨h1, h2, h3⟩
  rcases List.pairwise_cons.mp h2 with ⟨hd, h2'⟩
  constructor
  · intro y hy
    rcases List.mem_append.mp hy with hy | hy
    · exact h3 y hy d (List.mem_cons_self _ _)
    · exact fun he => hd y hy he.symm
  · exact List.pairwise_append.mpr
      ⟨h1, h2', fun a ha b hb => h3 a ha b (List.mem_cons_of_mem d hb)⟩

theorem swapRemove_facts (ch : List Node) (xnm : String)
    (hks : allKeys ch = true) (hnd : nodupNames ch = true) :
    (∀ y ∈ swapRemoveNamed ch xnm, y ∈ ch ∧ ¬ (keyName y = xnm)) ∧
    (∀ y ∈ ch, ¬ (keyName y = xnm) → y ∈ swapRemoveNamed ch xnm) ∧
    nodupBy keyName (swapRemoveNamed ch xnm) := by
  have hndP : nodupBy keyName ch := (nodupNames_iff ch).mp hnd
  rcases hidx : findIdxNamed ch xnm with _ | i
  · have hsw : swapRemoveNamed ch xnm = ch := by simp [swapRemoveNamed, hidx]
    have hno := findIdxNamed_none_allKeys ch hks xnm hidx
    rw [hsw]
    exact ⟨fun y hy => ⟨hy, hno y hy⟩, fun y hy _ => hy, hndP⟩
  · rcases findIdxNamed_decomp ch xnm i hidx with ⟨l₁, v, cc, l₂, hch, hlen⟩
    have hperm : (swapRemoveNamed ch xnm).Perm (l₁ ++ l₂) :=
      swapRemove_perm ch xnm l₁ l₂ v cc hch (by rw [hidx, hlen])
    have hfacts := pairwise_name_facts l₁ l₂ (Node.key xnm v cc) (by rw [← hch]; exact hndP)
    refine ⟨?_, ?_, (hperm.pairwise_iff (fun hab => fun he => hab he.symm)).mpr hfacts.2⟩
    · intro y hy
      have hy2 := hperm.mem_iff.mp hy
      constructor
      · rw [hch]
        rcases List.mem_append.mp hy2 with hy2 | hy2
        · exact List.mem_append.mpr (Or.inl hy2)
        · exact List.mem_append.mpr (Or.inr (List.mem_cons_of_mem _ hy2))
      · exact hfacts.1 y hy2
    · intro y hy hname
      rw [hch] at hy
      refine hperm.mem_iff.mpr ?_
      rcases List.mem_append.mp hy with hy | hy
      · exact List.mem_append.mpr (Or.inl hy)
      · rcases List.mem_cons.mp hy with rfl | hy
        · exact absurd (show keyName (Node.key xnm v cc) = xnm from rfl) hname
        · exact List.mem_append.mpr (Or.inr hy)

theorem insertKey_props (ch : List Node) (xnm : String) (xv : Option Node) (xc : Option String)
    (hks : allKeys ch = true) (hnd : nodupNames ch = true) :
    sortedNames (sortD (swapRemoveNamed ch xnm ++ [Node.key xnm xv xc])) = true ∧
    nodupNames (sortD (swapRemoveNamed ch xnm ++ [Node.key xnm xv xc])) = true ∧
    Node.key xnm xv xc ∈ sortD (swapRemoveNamed ch xnm ++ [Node.key xnm xv xc]) ∧
    (∀ y ∈ sortD (swapRemoveNamed ch xnm ++ [Node.key xnm xv xc]),
      y = Node.key xnm xv xc ∨ (y ∈ ch ∧ ¬ (keyName y = xnm))) ∧
    (∀ y ∈ ch, ¬ (keyName y = xnm) →
      y ∈ sortD (swapRemoveNamed ch xnm ++ [Node.key xnm xv xc])) := by
  rcases swapRemove_facts ch xnm hks hnd with ⟨f1, f2, f3⟩
  have hpermL : (sortD (swapRemoveNamed ch xnm ++ [Node.key xnm xv xc])).Perm
      (swapRemoveNamed ch xnm ++ [Node.key xnm xv xc]) := sortBy_perm keyName _
  have hndL : nodupBy keyName (swapRemoveNamed ch xnm ++ [Node.key xnm xv xc]) := by
    refine List.pairwise_append.mpr ⟨f3, List.pairwise_singleton _ _, ?_⟩
    intro a ha b hb
    rcases List.mem_singleton.mp hb with rfl
    exact (f1 a ha).2
  refine ⟨(sortedNames_iff _).mpr (sortBy_sorted keyName _),
    (nodupNames_iff _).mpr
      ((hpermL.pairwise_iff (fun hab => fun he => hab he.symm)).mpr hndL), ?_, ?_, ?_⟩
  · exact hpermL.mem_iff.mpr (List.mem_append.mpr (Or.inr (List.mem_singleton.mpr rfl)))
  · intro y hy
    rcases List.mem_append.mp (hpermL.mem_iff.mp hy) with hy2 | hy2
    · exact Or.inr (f1 y hy2)
    · exact Or.inl (List.mem_singleton.mp hy2)
  · intro y hy hname
    exact hpermL.mem_iff.mpr (List.mem_append.mpr (Or.inl (f2 y hy hname)))

/-! ## Insert: walk lemmas -/

theorem wfList_iff : ∀ l : List Node, wfList l = true ↔ ∀ c ∈ l, wfN c = true
  | [] => by simp [wfList]
  | c :: cs => by
    have hrec := wfList_iff cs
    constructor
    · intro h x hx
      rcases (Bool.and_eq_true _ _).mp h with ⟨h1, h2⟩
      rcases List.mem_cons.mp hx with rfl | hx
      · exact h1
      · exact hrec.mp h2 x hx
    · intro h
      have h1 := h c (List.mem_cons_self c cs)
      have h2 := hrec.mpr (fun x hx => h x (List.mem_cons_of_mem c hx))
      show (wfN c && wfList cs) = true
      rw [h1, h2]
      rfl

theorem wfN_dict_parts {ch : List Node} {pp : Procs} (h : wfN (.dict ch pp) = true) :
    allKeys ch = true ∧ nodupNames ch = true ∧ wfList ch = true := by
  have h0 : wfN (.dict ch pp) = (allKeys ch && nodupNames ch && wfList ch) := rfl
  rw [h0] at h
  rcases (Bool.and_eq_true _ _).mp h with ⟨h12, h3⟩
  rcases (Bool.and_eq_true _ _).mp h12 with ⟨h1, h2⟩
  exact ⟨h1, h2, h3⟩

theorem listIdx_mem : ∀ (ch : List Node) (k : String) (n : Node),
    listIdx ch k = some n → n ∈ ch := by
  intro ch k n h
  rcases ha : atoi k with _ | i
  · simp [listIdx, ha] at h
  · simp only [listIdx, ha] at h
    split at h
    · exact List.get?_mem h
    · cases h

theorem findN_wf (cur : Node) (p : String) (n : Node)
    (hwf : wfN cur = true) (h : findN cur p = some n) : wfN n = true := by
  cases cur with
  | dict ch pp =>
    rcases wfN_dict_parts hwf with ⟨_, _, h3⟩
    exact (wfList_iff ch).mp h3 n ((findIn_mem ch p n h).1)
  | key nm v c =>
    cases v with
    | none => cases h
    | some vv =>
      cases vv with
      | dict ch pp =>
        rcases wfN_dict_parts (show wfN (Node.dict ch pp) = true from hwf) with ⟨_, _, h3⟩
        exact (wfList_iff ch).mp h3 n ((findIn_mem ch p n h).1)
      | list ch pp =>
        have h3 : wfList ch = true := hwf
        exact (wfList_iff ch).mp h3 n (listIdx_mem ch p n h)
      | strV s q => cases h
      | intV i q => cases h
      | uintV u q => cases h
      | floatV f q => cases h
      | boolV b q => cases h
      | key n2 v2 c2 => cases h
      | null => cases h
  | list ch pp =>
    have h3 : wfList ch = true := hwf
    exact (wfList_iff ch).mp h3 n (listIdx_mem ch p n h)
  | strV s q => cases h
  | intV i q => cases h
  | uintV u q => cases h
  | floatV f q => cases h
  | boolV b q => cases h
  | null => cases h

theorem insTerm_shape (nm : String) (v : Option Node) (c : Option String) (x r : Node)
    (h : insTerm (.key nm v c) x = .ok r) : ∃ v2, r = .key nm (some v2) c := by
  cases x with
  | dict ch pp =>
    simp [insTerm] at h
    exact ⟨.dict ch pp, h.symm⟩
  | list ch pp =>
    simp [insTerm] at h
    exact ⟨.list ch pp, h.symm⟩
  | key xnm xv xc =>
    cases v with
    | none =>
      simp [insTerm] at h
      exact ⟨_, h.symm⟩
    | some vv =>
      cases vv <;> simp [insTerm] at h <;> exact ⟨_, h.symm⟩
  | strV s q => simp [insTerm] at h; exact ⟨_, h.symm⟩
  | intV i q => simp [insTerm] at h; exact ⟨_, h.symm⟩
  | uintV u q => simp [insTerm] at h; exact ⟨_, h.symm⟩
  | floatV f q => simp [insTerm] at h; exact ⟨_, h.symm⟩
  | boolV b q => simp [insTerm] at h; exact ⟨_, h.symm⟩
  | null => simp [insTerm] at h; exact ⟨_, h.symm⟩

theorem setFound_key_shape (nm : String) (v : Option Node) (c : Option String)
    (p : String) (m : Node) :
    ∃ v2, setFound (.key nm v c) p m = .key nm v2 c := by
  cases v with
  | none => exact ⟨none, rfl⟩
  | some vv => cases vv <;> exact ⟨_, rfl⟩

theorem insWalk_keyShape : ∀ (parts : List String) (nm : String) (v : Option Node)
    (c : Option String) (x r : Node),
    insWalk (.key nm v c) parts x = .ok r → ∃ v2, r = .key nm v2 c
  | [], nm, v, c, x, r, h => by
    rcases insTerm_shape nm v c x r h with ⟨v2, rfl⟩
    exact ⟨some v2, rfl⟩
  | p :: rest, nm, v, c, x, r, h => by
    simp only [insWalk] at h
    rcases hf : findN (.key nm v c) p with _ | n
    · simp only [hf] at h
      cases v with
      | none => cases h
      | some vv =>
        cases vv with
        | dict ch dp =>
          rcases hw : insWalk (.key p (some (.dict [] none)) none) rest x with e | m
          · simp only [hw, Except.map] at h
            exact Except.noConfusion h
          · simp only [hw, Except.map, Except.ok.injEq] at h
            exact ⟨_, h.symm⟩
        | list ch lp =>
          rcases hw : insWalk (.dict [] none) rest x with e | m
          · simp only [hw, Except.map] at h
            exact Except.noConfusion h
          · simp only [hw, Except.map, Except.ok.injEq] at h
            exact ⟨_, h.symm⟩
        | strV s q => cases h
        | intV i q => cases h
        | uintV u q => cases h
        | floatV f q => cases h
        | boolV b q => cases h
        | key n2 v2 c2 => cases h
        | null => cases h
    · simp only [hf] at h
      rcases hw : insWalk n rest x with e | m
      · simp only [hw, Except.map] at h
        exact Except.noConfusion h
      · simp only [hw, Except.map, Except.ok.injEq] at h
        rcases setFound_key_shape nm v c p m with ⟨v2, hs⟩
        exact ⟨v2, by rw [← h]; exact hs⟩

theorem set_get_self : ∀ (l : List Node) (i : Nat) (a : Node),
    l.get? i = some a → l.set i a = l
  | [], i, a, h => by simp at h
  | b :: l, 0, a, h => by
    simp at h
    rw [h]
    rfl
  | b :: l, i + 1, a, h => by
    have h2 : l.get? i = some a := h
    show b :: l.set i a = b :: l
    rw [set_get_self l i a h2]

theorem listIdx_setIdx (ch : List Node) (k : String) (n m : Node)
    (h : listIdx ch k = some n) : listIdx (listSetIdx ch k m) k = some m := by
  rcases ha : atoi k with _ | i
  · simp [listIdx, ha] at h
  · simp only [listIdx, listSetIdx, ha] at h ⊢
    split at h
    · rename_i hrange
      rw [if_pos hrange]
      have hlt : i.toNat < ch.length := by
        rcases hrange with ⟨h0, h1⟩
        omega
      rw [if_pos (by simpa using hrange)]
      rw [List.get?_eq_getElem?, List.getElem?_set_self (by simpa using hlt)]
    · cases h

theorem listSetIdx_self (ch : List Node) (k : String) (m : Node)
    (h : listIdx ch k = some m) : listSetIdx ch k m = ch := by
  rcases ha : atoi k with _ | i
  · simp [listIdx, ha] at h
  · simp only [listIdx, listSetIdx, ha] at h ⊢
    split at h
    · rename_i hrange
      rw [if_pos hrange]
      exact set_get_self ch i.toNat m h
    · cases h

theorem setFound_self (cur : Node) (p : String) (m : Node)
    (h : findN cur p = some m) : setFound cur p m = cur := by
  cases cur with
  | dict ch pp =>
    have h2 : findIn ch p = some m := h
    show Node.dict (replaceFirstNamed ch p m) pp = Node.dict ch pp
    rw [replaceFirst_self ch p m h2]
  | key nm v c =>
    cases v with
    | none => cases h
    | some vv =>
      cases vv with
      | dict ch pp =>
        have h2 : findIn ch p = some m := h
        show Node.key nm (some (Node.dict (replaceFirstNamed ch p m) pp)) c = _
        rw [replaceFirst_self ch p m h2]
      | list ch pp =>
        have h2 : listIdx ch p = some m := h
        show Node.key nm (some (Node.list (listSetIdx ch p m) pp)) c = _
        rw [listSetIdx_self ch p m h2]
      | strV s q => cases h
      | intV i q => cases h
      | uintV u q => cases h
      | floatV f q => cases h
      | boolV b q => cases h
      | key n2 v2 c2 => cases h
      | null => cases h
  | list ch pp =>
    have h2 : listIdx ch p = some m := h
    show Node.list (listSetIdx ch p m) pp = Node.list ch pp
    rw [listSetIdx_self ch p m h2]
  | strV s q => cases h
  | intV i q => cases h
  | uintV u q => cases h
  | floatV f q => cases h
  | boolV b q => cases h
  | null => cases h

/-- After replacing the found child, Find resolves the same component to the
replacement, provided a name-found replacement keeps the name. -/
theorem findN_setFound (cur : Node) (p : String) (n m : Node)
    (h : findN cur p = some n) (hm : keyName n = p → keyName m = p) :
    findN (setFound cur p m) p = some m := by
  cases cur with
  | dict ch pp =>
    have h2 : findIn ch p = some n := h
    have hmp : keyName m = p := hm (findIn_mem ch p n h2).2
    show findIn (replaceFirstNamed ch p m) p = some m
    exact replaceFirst_of_found ch p n m h2 hmp
  | key nm v c =>
    cases v with
    | none => cases h
    | some vv =>
      cases vv with
      | dict ch pp =>
        have h2 : findIn ch p = some n := h
        have hmp : keyName m = p := hm (findIn_mem ch p n h2).2
        show findIn (replaceFirstNamed ch p m) p = some m
        exact replaceFirst_of_found ch p n m h2 hmp
      | list ch pp =>
        have h2 : listIdx ch p = some n := h
        show listIdx (listSetIdx ch p m) p = some m
        exact listIdx_setIdx ch p n m h2
      | strV s q => cases h
      | intV i q => cases h
      | uintV u q => cases h
      | floatV f q => cases h
      | boolV b q => cases h
      | key n2 v2 c2 => cases h
      | null => cases h
  | list ch pp =>
    have h2 : listIdx ch p = some n := h
    show listIdx (listSetIdx ch p m) p = some m
    exact listIdx_setIdx ch p n m h2
  | strV s q => cases h
  | intV i q => cases h
  | uintV u q => cases h
  | floatV f q => cases h
  | boolV b q => cases h
  | null => cases h

theorem findIn_key_shape (ch : List Node) (p : String) (n : Node)
    (hks : allKeys ch = true) (h : findIn ch p = some n) :
    ∃ v2 c2, n = Node.key p v2 c2 := by
  have hmem := findIn_mem ch p n h
  rcases (allKeys_iff ch).mp hks n hmem.1 with ⟨nm3, v3, c3, hkey⟩
  subst hkey
  have he : nm3 = p := hmem.2
  subst he
  exact ⟨v3, c3, rfl⟩

theorem findN_keyName_key (cur : Node) (p : String) (n : Node)
    (hwf : wfN cur = true) (h : findN cur p = some n) (hnp : keyName n = p) :
    ∃ v2 c2, n = Node.key p v2 c2 := by
  cases cur with
  | dict ch pp =>
    rcases wfN_dict_parts hwf with ⟨hks, _, _⟩
    exact findIn_key_shape ch p n hks h
  | key nm v c =>
    cases v with
    | none => exact Option.noConfusion h
    | some vv =>
      cases vv with
      | dict ch pp =>
        rcases wfN_dict_parts (show wfN (Node.dict ch pp) = true from hwf) with ⟨hks, _, _⟩
        exact findIn_key_shape ch p n hks (show findIn ch p = some n from h)
      | list ch pp =>
        cases n with
        | key nm2 v2 c2 =>
          have he : nm2 = p := hnp
          subst he
          exact ⟨v2, c2, rfl⟩
        | dict ch2 pp2 =>
          have hp : p = "" := hnp.symm
          subst hp
          exact Option.noConfusion h
        | list ch2 pp2 =>
          have hp : p = "" := hnp.symm
          subst hp
          exact Option.noConfusion h
        | strV s q =>
          have hp : p = "" := hnp.symm
          subst hp
          exact Option.noConfusion h
        | intV i q =>
          have hp : p = "" := hnp.symm
          subst hp
          exact Option.noConfusion h
        | uintV u q =>
          have hp : p = "" := hnp.symm
          subst hp
          exact Option.noConfusion h
        | floatV f q =>
          have hp : p = "" := hnp.symm
          subst hp
          exact Option.noConfusion h
        | boolV b q =>
          have hp : p = "" := hnp.symm
          subst hp
          exact Option.noConfusion h
        | null =>
          have hp : p = "" := hnp.symm
          subst hp
          exact Option.noConfusion h
      | strV s q => exact Option.noConfusion h
      | intV i q => exact Option.noConfusion h
      | uintV u q => exact Option.noConfusion h
      | floatV f q => exact Option.noConfusion h
      | boolV b q => exact Option.noConfusion h
      | key n3 v3 c3 => exact Option.noConfusion h
      | null => exact Option.noConfusion h
  | list ch pp =>
    cases n with
    | key nm2 v2 c2 =>
      have he : nm2 = p := hnp
      subst he
      exact ⟨v2, c2, rfl⟩
    | dict ch2 pp2 =>
      have hp : p = "" := hnp.symm
      subst hp
      exact Option.noConfusion h
    | list ch2 pp2 =>
      have hp : p = "" := hnp.symm
      subst hp
      exact Option.noConfusion h
    | strV s q =>
      have hp : p = "" := hnp.symm
      subst hp
      exact Option.noConfusion h
    | intV i q =>
      have hp : p = "" := hnp.symm
      subst hp
      exact Option.noConfusion h
    | uintV u q =>
      have hp : p = "" := hnp.symm
      subst hp
      exact Option.noConfusion h
    | floatV f q =>
      have hp : p = "" := hnp.symm
      subst hp
      exact Option.noConfusion h
    | boolV b q =>
      have hp : p = "" := hnp.symm
      subst hp
      exact Option.noConfusion h
    | null =>
      have hp : p = "" := hnp.symm
      subst hp
      exact Option.noConfusion h
  | strV s q => exact Option.noConfusion h
  | intV i q => exact Option.noConfusion h
  | uintV u q => exact Option.noConfusion h
  | floatV f q => exact Option.noConfusion h
  | boolV b q => exact Option.noConfusion h
  | null => exact Option.noConfusion h

theorem lookupN_wf : ∀ (parts : List String) (root cur : Node),
    wfN root = true → lookupN root parts = some cur → wfN cur = true
  | [], root, cur, hwf, hl => by
    simp [lookupN] at hl
    rw [← hl]
    exact hwf
  | p :: rest, root, cur, hwf, hl => by
    simp only [lookupN] at hl
    rcases hf : findN root p with _ | n
    · rw [hf] at hl; cases hl
    · rw [hf] at hl
      exact lookupN_wf rest n cur (findN_wf root p n hwf hf) hl

theorem insWalk_found : ∀ (parts : List String) (root cur x r : Node),
    wfN root = true →
    lookupN root parts = some cur →
    insTerm cur x = .ok r →
    ∃ r2, insWalk root parts x = .ok r2 ∧ lookupN r2 parts = some r
  | [], root, cur, x, r, hwf, hl, ht => by
    simp [lookupN] at hl
    subst hl
    exact ⟨r, ht, by simp [lookupN]⟩
  | p :: rest, root, cur, x, r, hwf, hl, ht => by
    simp only [lookupN] at hl
    rcases hf : findN root p with _ | n
    · rw [hf] at hl; cases hl
    · rw [hf] at hl
      have hwfn := findN_wf root p n hwf hf
      rcases insWalk_found rest n cur x r hwfn hl ht with ⟨r2, hw, hl2⟩
      refine ⟨setFound root p r2, ?_, ?_⟩
      · simp only [insWalk, hf, hw, Except.map]
      · have hm : keyName n = p → keyName r2 = p := by
          intro hnp
          rcases findN_keyName_key root p n hwf hf hnp with ⟨v2, c2, rfl⟩
          rcases insWalk_keyShape rest p v2 c2 x r2 hw with ⟨v3, rfl⟩
          rfl
        have hfs := findN_setFound root p n r2 hf hm
        simp only [lookupN, hfs]
        exact hl2

/-- C6: after Insert of a KeyedEntry at a selector that resolves to a
KeyedEntry holding a Mapping (in a well-formed tree), the target Mapping's
key names are unique, any prior entry with the inserted name is gone (the
new entry replaces it), every other entry survives, and the children are
re-sorted in ascending name order. -/
theorem c6_insert_unique_sorted (root : Node) (parts : List String)
    (xnm nm : String) (xv : Option Node) (xc c : Option String)
    (ch : List Node) (p : Procs)
    (hwf : wfN root = true)
    (hlook : lookupN root parts = some (.key nm (some (.dict ch p)) c)) :
    ∃ r2 ch2, insWalk root parts (.key xnm xv xc) = .ok r2 ∧
      lookupN r2 parts = some (.key nm (some (.dict ch2 p)) c) ∧
      sortedNames ch2 = true ∧ nodupNames ch2 = true ∧ (Node.key xnm xv xc) ∈ ch2 ∧
      (∀ y ∈ ch2, y = Node.key xnm xv xc ∨ (y ∈ ch ∧ ¬ (keyName y = xnm))) ∧
      (∀ y ∈ ch, ¬ (keyName y = xnm) → y ∈ ch2) := by
  have hwfc := lookupN_wf parts root _ hwf hlook
  rcases wfN_dict_parts (show wfN (Node.dict ch p) = true from hwfc) with ⟨hks, hnd, _⟩
  have ht : insTerm (.key nm (some (.dict ch p)) c) (.key xnm xv xc) =
      .ok (.key nm (some (.dict
        (sortD (swapRemoveNamed ch xnm ++ [Node.key xnm xv xc])) p)) c) := rfl
  rcases insWalk_found parts root _ _ _ hwf hlook ht with ⟨r2, hw, hl2⟩
  rcases insertKey_props ch xnm xv xc hks hnd with ⟨h1, h2, h3, h4, h5⟩
  exact ⟨r2, sortD (swapRemoveNamed ch xnm ++ [Node.key xnm xv xc]),
    hw, hl2, h1, h2, h3, h4, h5⟩

/-- C6 witness: inserting x: 2 into the Mapping at selector a, which already
holds x: 1 and y: 3. -/
theorem c6_insert_unique_sorted_witness :
    ∃ r2 ch2, insWalk
        (.dict [.key "a" (some (.dict [.key "x" (some (.intV 1 none)) none,
                                       .key "y" (some (.intV 3 none)) none] none)) none] none)
        ["a"] (.key "x" (some (.intV 2 none)) none) = .ok r2 ∧
      lookupN r2 ["a"] = some (.key "a" (some (.dict ch2 none)) none) ∧
      sortedNames ch2 = true ∧ nodupNames ch2 = true ∧
      (Node.key "x" (some (.intV 2 none)) none) ∈ ch2 ∧
      (∀ y ∈ ch2, y = Node.key "x" (some (.intV 2 none)) none ∨
        (y ∈ [Node.key "x" (some (.intV 1 none)) none,
              Node.key "y" (some (.intV 3 none)) none] ∧ ¬ (keyName y = "x"))) ∧
      (∀ y ∈ [Node.key "x" (some (.intV 1 none)) none,
              Node.key "y" (some (.intV 3 none)) none],
        ¬ (keyName y = "x") → y ∈ ch2) :=
  c6_insert_unique_sorted
    (.dict [.key "a" (some (.dict [.key "x" (some (.intV 1 none)) none,
                                   .key "y" (some (.intV 3 none)) none] none)) none] none)
    ["a"] "x" "a" (some (.intV 2 none)) none none
    [.key "x" (some (.intV 1 none)) none, .key "y" (some (.intV 3 none)) none] none
    (by decide) rfl

theorem swapRemove_append_self_perm (ch : List Node) (xnm : String)
    (xv : Option Node) (xc : Option String)
    (hx : Node.key xnm xv xc ∈ ch)
    (hks : allKeys ch = true) (hnd : nodupNames ch = true) :
    (swapRemoveNamed ch xnm ++ [Node.key xnm xv xc]).Perm ch := by
  rcases hidx : findIdxNamed ch xnm with _ | i
  · exact absurd rfl (findIdxNamed_none_allKeys ch hks xnm hidx _ hx)
  · rcases findIdxNamed_decomp ch xnm i hidx with ⟨l₁, v, cc, l₂, hch, hlen⟩
    have hidx2 : findIdxNamed ch xnm = some l₁.length := by rw [hidx, hlen]
    have hperm := swapRemove_perm ch xnm l₁ l₂ v cc hch hidx2
    have hndP : nodupBy keyName ch := (nodupNames_iff ch).mp hnd
    have hnames := (pairwise_name_facts l₁ l₂ (Node.key xnm v cc) (hch ▸ hndP)).1
    have hxd : Node.key xnm xv xc = Node.key xnm v cc := by
      rw [hch] at hx
      rcases List.mem_append.mp hx with h1 | h2
      · exact absurd rfl (hnames (Node.key xnm xv xc) (List.mem_append.mpr (Or.inl h1)))
      · rcases List.mem_cons.mp h2 with he | h3
        · exact he
        · exact absurd rfl (hnames (Node.key xnm xv xc) (List.mem_append.mpr (Or.inr h3)))
    have p1 : (swapRemoveNamed ch xnm ++ [Node.key xnm xv xc]).Perm
        ((l₁ ++ l₂) ++ [Node.key xnm xv xc]) := hperm.append_right _
    have p2 : ((l₁ ++ l₂) ++ [Node.key xnm xv xc]).Perm
        (Node.key xnm xv xc :: (l₁ ++ l₂)) := List.perm_append_singleton _ _
    have p3 : (Node.key xnm xv xc :: (l₁ ++ l₂)).Perm
        (l₁ ++ Node.key xnm xv xc :: l₂) := List.perm_middle.symm
    have p4 := (p1.trans p2).trans p3
    have hch2 : l₁ ++ Node.key xnm xv xc :: l₂ = ch := by rw [hxd, ← hch]
    exact p4.trans (by rw [hch2])

theorem insertKey_self (ch : List Node) (xnm : String) (xv : Option Node) (xc : Option String)
    (hx : Node.key xnm xv xc ∈ ch)
    (hks : allKeys ch = true) (hnd : nodupNames ch = true) (hs : sortedNames ch = true) :
    sortD (swapRemoveNamed ch xnm ++ [Node.key xnm xv xc]) = ch :=
  sortD_eq_of_perm ch _ (swapRemove_append_self_perm ch xnm xv xc hx hks hnd) hs hnd

theorem insTerm_key_dict_idem (nm : String) (c : Option String) (p : Procs)
    (ch2 : List Node) (xnm : String) (xv : Option Node) (xc : Option String)
    (hx : Node.key xnm xv xc ∈ ch2) (hks : allKeys ch2 = true)
    (hnd : nodupNames ch2 = true) (hs : sortedNames ch2 = true) :
    insTerm (.key nm (some (.dict ch2 p)) c) (.key xnm xv xc) =
      .ok (.key nm (some (.dict ch2 p)) c) := by
  show Except.ok (Node.key nm (some (.dict
      (sortD (swapRemoveNamed ch2 xnm ++ [Node.key xnm xv xc])) p)) c) =
    Except.ok (Node.key nm (some (.dict ch2 p)) c)
  rw [insertKey_self ch2 xnm xv xc hx hks hnd hs]

theorem insTerm_idem (cur x r : Node) (hwf : wfN cur = true)
    (h : insTerm cur x = .ok r) : insTerm r x = .ok r := by
  cases cur with
  | key nm v c =>
    cases x with
    | dict ch pp =>
      replace h : Except.ok (Node.key nm (some (Node.dict ch pp)) c) = Except.ok r := h
      injection h with h
      subst h
      rfl
    | list ch pp =>
      replace h : Except.ok (Node.key nm (some (Node.list ch pp)) c) = Except.ok r := h
      injection h with h
      subst h
      rfl
    | key xnm xv xc =>
      have hsing : insTerm (Node.key nm (some (Node.dict [Node.key xnm xv xc] none)) c)
          (Node.key xnm xv xc) =
          .ok (Node.key nm (some (Node.dict [Node.key xnm xv xc] none)) c) := by
        refine insTerm_key_dict_idem nm c none [Node.key xnm xv xc] xnm xv xc ?_ rfl rfl rfl
        exact List.mem_singleton.mpr rfl
      cases v with
      | none =>
        replace h : Except.ok (Node.key nm (some (Node.dict [Node.key xnm xv xc] none)) c) =
            Except.ok r := h
        injection h with h
        subst h
        exact hsing
      | some vv =>
        cases vv with
        | dict ch p =>
          rcases wfN_dict_parts (show wfN (Node.dict ch p) = true from hwf) with ⟨hks, hnd, _⟩
          replace h : Except.ok (Node.key nm (some (Node.dict
              (sortD (swapRemoveNamed ch xnm ++ [Node.key xnm xv xc])) p)) c) =
              Except.ok r := h
          injection h with h
          subst h
          rcases insertKey_props ch xnm xv xc hks hnd with ⟨h1, h2, h3, h4, _⟩
          have hks2 : allKeys (sortD (swapRemoveNamed ch xnm ++ [Node.key xnm xv xc])) = true := by
            refine (allKeys_iff _).mpr ?_
            intro y hy
            rcases h4 y hy with rfl | ⟨hych, _⟩
            · exact ⟨xnm, xv, xc, rfl⟩
            · exact (allKeys_iff ch).mp hks y hych
          exact insTerm_key_dict_idem nm c p _ xnm xv xc h3 hks2 h2 h1
        | list ch p =>
          replace h : Except.ok (Node.key nm (some (Node.dict [Node.key xnm xv xc] none)) c) =
              Except.ok r := h
          injection h with h
          subst h
          exact hsing
        | key n3 v3 c3 =>
          replace h : Except.ok (Node.key nm (some (Node.dict [Node.key xnm xv xc] none)) c) =
              Except.ok r := h
          injection h with h
          subst h
          exact hsing
        | strV s q =>
          replace h : Except.ok (Node.key nm (some (Node.dict [Node.key xnm xv xc] none)) c) =
              Except.ok r := h
          injection h with h
          subst h
          exact hsing
        | intV i q =>
          replace h : Except.ok (Node.key nm (some (Node.dict [Node.key xnm xv xc] none)) c) =
              Except.ok r := h
          injection h with h
          subst h
          exact hsing
        | uintV u q =>
          replace h : Except.ok (Node.key nm (some (Node.dict [Node.key xnm xv xc] none)) c) =
              Except.ok r := h
          injection h with h
          subst h
          exact hsing
        | floatV f q =>
          replace h : Except.ok (Node.key nm (some (Node.dict [Node.key xnm xv xc] none)) c) =
              Except.ok r := h
          injection h with h
          subst h
          exact hsing
        | boolV b q =>
          replace h : Except.ok (Node.key nm (some (Node.dict [Node.key xnm xv xc] none)) c) =
              Except.ok r := h
          injection h with h
          subst h
          exact hsing
        | null =>
          replace h : Except.ok (Node.key nm (some (Node.dict [Node.key xnm xv xc] none)) c) =
              Except.ok r := h
          injection h with h
          subst h
          exact hsing
    | strV s q =>
      replace h : Except.ok (Node.key nm (some (Node.dict [Node.strV s q] none)) c) =
          Except.ok r := h
      injection h with h
      subst h
      rfl
    | intV i q =>
      replace h : Except.ok (Node.key nm (some (Node.dict [Node.intV i q] none)) c) =
          Except.ok r := h
      injection h with h
      subst h
      rfl
    | uintV u q =>
      replace h : Except.ok (Node.key nm (some (Node.dict [Node.uintV u q] none)) c) =
          Except.ok r := h
      injection h with h
      subst h
      rfl
    | floatV f q =>
      replace h : Except.ok (Node.key nm (some (Node.dict [Node.floatV f q] none)) c) =
          Except.ok r := h
      injection h with h
      subst h
      rfl
    | boolV b q =>
      replace h : Except.ok (Node.key nm (some (Node.dict [Node.boolV b q] none)) c) =
          Except.ok r := h
      injection h with h
      subst h
      rfl
    | null =>
      replace h : Except.ok (Node.key nm (some (Node.dict [Node.null] none)) c) =
          Except.ok r := h
      injection h with h
      subst h
      rfl
  | dict ch pp => exact Except.noConfusion h
  | list ch pp => exact Except.noConfusion h
  | strV s q => exact Except.noConfusion h
  | intV i q => exact Except.noConfusion h
  | uintV u q => exact Except.noConfusion h
  | floatV f q => exact Except.noConfusion h
  | boolV b q => exact Except.noConfusion h
  | null => exact Except.noConfusion h

/-- The walk stays clear of the List-append branch of Insert: at every
not-found step the current node is a Dict or a Key holding a Dict (a Key
holding a List appends a fresh element on every Insert). -/
def walkNoListApp : Node → List String → Bool
  | _, [] => true
  | cur, p :: rest =>
    match findN cur p with
    | some n => walkNoListApp n rest
    | none =>
      match cur with
      | .key _ v _ =>
        match v with
        | some (.dict _ _) => true
        | _ => false
      | .dict _ _ => true
      | _ => false

theorem walkNoListApp_fresh : ∀ (rest : List String) (p : String),
    walkNoListApp (.key p (some (.dict [] none)) none) rest = true
  | [], _ => rfl
  | _ :: _, _ => rfl

theorem insWalk_cons_found (cur : Node) (p : String) (rest : List String) (x n : Node)
    (hf : findN cur p = some n) :
    insWalk cur (p :: rest) x = (insWalk n rest x).map (setFound cur p) := by
  cases cur with
  | key nm v c =>
    cases v with
    | none => simp only [insWalk, hf]
    | some vv => cases vv <;> simp only [insWalk, hf]
  | dict ch dp => simp only [insWalk, hf]
  | list ch lp => simp only [insWalk, hf]
  | strV s q => simp only [insWalk, hf]
  | intV i q => simp only [insWalk, hf]
  | uintV u q => simp only [insWalk, hf]
  | floatV f q => simp only [insWalk, hf]
  | boolV b q => simp only [insWalk, hf]
  | null => simp only [insWalk, hf]

theorem insWalk_idem : ∀ (parts : List String) (cur x r : Node),
    wfN cur = true → walkNoListApp cur parts = true →
    insWalk cur parts x = .ok r → insWalk r parts x = .ok r
  | [], cur, x, r, hwf, _, h => insTerm_idem cur x r hwf h
  | p :: rest, cur, x, r, hwf, hnl, h => by
    rcases hf : findN cur p with _ | n
    · -- component not found
      cases cur with
      | dict ch dp =>
        rw [insWalk, hf] at h
        replace h : (insWalk (.key p (some (.dict [] none)) none) rest x).map
            (fun n2 => Node.dict (sortD (ch ++ [n2])) dp) = Except.ok r := h
        rcases hw : insWalk (.key p (some (.dict [] none)) none) rest x with e | n2
        · rw [hw] at h; exact Except.noConfusion h
        · rw [hw] at h
          replace h : Except.ok (Node.dict (sortD (ch ++ [n2])) dp) = Except.ok r := h
          injection h with h
          subst h
          rcases insWalk_keyShape rest p (some (.dict [] none)) none x n2 hw with ⟨v2, rfl⟩
          have hnone : ∀ c2 ∈ ch, ¬ (keyName c2 = p) := (findIn_eq_none ch p).mp hf
          have hperm : (sortD (ch ++ [Node.key p v2 none])).Perm
              (ch ++ [Node.key p v2 none]) := sortBy_perm keyName _
          have hmem : Node.key p v2 none ∈ sortD (ch ++ [Node.key p v2 none]) :=
            hperm.mem_iff.mpr (List.mem_append.mpr (Or.inr (List.mem_singleton.mpr rfl)))
          have huniq : ∀ c2 ∈ sortD (ch ++ [Node.key p v2 none]),
              keyName c2 = p → c2 = Node.key p v2 none := by
            intro c2 hc2 hcp
            rcases List.mem_append.mp (hperm.mem_iff.mp hc2) with h1 | h2
            · exact absurd hcp (hnone c2 h1)
            · exact List.mem_singleton.mp h2
          have hfN : findN (Node.dict (sortD (ch ++ [Node.key p v2 none])) dp) p =
              some (Node.key p v2 none) :=
            findIn_unique _ p _ hmem rfl huniq
          have hidem := insWalk_idem rest (Node.key p (some (Node.dict [] none)) none) x
            (Node.key p v2 none) rfl (walkNoListApp_fresh rest p) hw
          rw [insWalk_cons_found _ p rest x _ hfN, hidem]
          exact congrArg Except.ok (setFound_self _ _ _ hfN)
      | key nm v c =>
        cases v with
        | none =>
          simp only [walkNoListApp, hf] at hnl
          exact Bool.noConfusion hnl
        | some vv =>
          cases vv with
          | dict ch dp =>
            rw [insWalk, hf] at h
            replace h : (insWalk (.key p (some (.dict [] none)) none) rest x).map
                (fun n2 => Node.key nm (some (Node.dict (sortD (ch ++ [n2])) dp)) c) =
                Except.ok r := h
            rcases hw : insWalk (.key p (some (.dict [] none)) none) rest x with e | n2
            · rw [hw] at h; exact Except.noConfusion h
            · rw [hw] at h
              replace h : Except.ok (Node.key nm (some (Node.dict (sortD (ch ++ [n2])) dp)) c) =
                  Except.ok r := h
              injection h with h
              subst h
              rcases insWalk_keyShape rest p (some (.dict [] none)) none x n2 hw with ⟨v2, rfl⟩
              have hnone : ∀ c2 ∈ ch, ¬ (keyName c2 = p) := (findIn_eq_none ch p).mp hf
              have hperm : (sortD (ch ++ [Node.key p v2 none])).Perm
                  (ch ++ [Node.key p v2 none]) := sortBy_perm keyName _
              have hmem : Node.key p v2 none ∈ sortD (ch ++ [Node.key p v2 none]) :=
                hperm.mem_iff.mpr (List.mem_append.mpr (Or.inr (List.mem_singleton.mpr rfl)))
              have huniq : ∀ c2 ∈ sortD (ch ++ [Node.key p v2 none]),
                  keyName c2 = p → c2 = Node.key p v2 none := by
                intro c2 hc2 hcp
                rcases List.mem_append.mp (hperm.mem_iff.mp hc2) with h1 | h2
                · exact absurd hcp (hnone c2 h1)
                · exact List.mem_singleton.mp h2
              have hfN : findN (Node.key nm (some (Node.dict
                  (sortD (ch ++ [Node.key p v2 none])) dp)) c) p =
                  some (Node.key p v2 none) :=
                findIn_unique _ p _ hmem rfl huniq
              have hidem := insWalk_idem rest (Node.key p (some (Node.dict [] none)) none) x
                (Node.key p v2 none) rfl (walkNoListApp_fresh rest p) hw
              rw [insWalk_cons_found _ p rest x _ hfN, hidem]
              exact congrArg Except.ok (setFound_self _ _ _ hfN)
          | list ch lp =>
            simp only [walkNoListApp, hf] at hnl
            exact Bool.noConfusion hnl
          | strV s q =>
            simp only [walkNoListApp, hf] at hnl
            exact Bool.noConfusion hnl
          | intV i q =>
            simp only [walkNoListApp, hf] at hnl
            exact Bool.noConfusion hnl
          | uintV u q =>
            simp only [walkNoListApp, hf] at hnl
            exact Bool.noConfusion hnl
          | floatV f q =>
            simp only [walkNoListApp, hf] at hnl
            exact Bool.noConfusion hnl
          | boolV b q =>
            simp only [walkNoListApp, hf] at hnl
            exact Bool.noConfusion hnl
          | key n3 v3 c3 =>
            simp only [walkNoListApp, hf] at hnl
            exact Bool.noConfusion hnl
          | null =>
            simp only [walkNoListApp, hf] at hnl
            exact Bool.noConfusion hnl
      | list ch lp =>
        simp only [walkNoListApp, hf] at hnl
        exact Bool.noConfusion hnl
      | strV s q =>
        simp only [walkNoListApp, hf] at hnl
        exact Bool.noConfusion hnl
      | intV i q =>
        simp only [walkNoListApp, hf] at hnl
        exact Bool.noConfusion hnl
      | uintV u q =>
        simp only [walkNoListApp, hf] at hnl
        exact Bool.noConfusion hnl
      | floatV f q =>
        simp only [walkNoListApp, hf] at hnl
        exact Bool.noConfusion hnl
      | boolV b q =>
        simp only [walkNoListApp, hf] at hnl
        exact Bool.noConfusion hnl
      | null =>
        simp only [walkNoListApp, hf] at hnl
        exact Bool.noConfusion hnl
    · -- component found
      rw [insWalk_cons_found cur p rest x n hf] at h
      rcases hw : insWalk n rest x with e | m
      · rw [hw] at h; exact Except.noConfusion h
      · rw [hw] at h
        replace h : Except.ok (setFound cur p m) = Except.ok r := h
        injection h with h
        subst h
        have hwfn := findN_wf cur p n hwf hf
        have hnl2 : walkNoListApp n rest = true := by
          simp only [walkNoListApp, hf] at hnl
          exact hnl
        have hidem := insWalk_idem rest n x m hwfn hnl2 hw
        have hm : keyName n = p → keyName m = p := by
          intro hnp
          rcases findN_keyName_key cur p n hwf hf hnp with ⟨v2, c2, rfl⟩
          rcases insWalk_keyShape rest p v2 c2 x m hw with ⟨v3, rfl⟩
          rfl
        have hfN := findN_setFound cur p n m hf hm
        rw [insWalk_cons_found _ p rest x _ hfN, hidem]
        exact congrArg Except.ok (setFound_self _ _ _ hfN)

def c7Root : Node := .dict [.key "l" (some (.list [] none)) none] none

/-- Length of the List value stored under the top-level key l. -/
def listLenAt : Except String Node → Option Nat
  | .ok n =>
    match lookupN n ["l"] with
    | some (.key _ (some (.list ch _)) _) => some ch.length
    | _ => none
  | _ => none

def c7Twice : Except String Node :=
  match insertGo c7Root (.intV 5 none) "l.x.y" with
  | .ok r1 => insertGo r1 (.intV 5 none) "l.x.y"
  | e => e

/-- C7 counterexample: Insert is not idempotent.  When a selector component is
not found and the current node is a KeyedEntry holding a List, Insert appends
a fresh Dict to the List with no duplicate check, so inserting 5 at l.x.y
twice into {l: []} grows the list to two elements while a single insert
yields one. -/
theorem c7_counterexample :
    listLenAt (insertGo c7Root (.intV 5 none) "l.x.y") = some 1 ∧
    listLenAt c7Twice = some 2 := by decide

/-- C7 (corrected): Insert is idempotent whenever the walk never takes the
List-append branch: for a well-formed tree, if every not-found step of the
selector walk happens at a Dict or at a KeyedEntry holding a Dict, then a
successful insert(t, x, s) = r satisfies insert(r, x, s) = r.  (Without the
walkNoListApp hypothesis this fails: see the counterexample, where a
KeyedEntry holding a List appends a fresh element on every Insert.) -/
theorem c7_insert_idempotent_amended (t x : Node) (s : String) (r : Node)
    (hwf : wfN t = true) (hnl : walkNoListApp t (splitPath s) = true)
    (h : insertGo t x s = .ok r) : insertGo r x s = .ok r :=
  insWalk_idem (splitPath s) t x r hwf hnl h

def c7wRoot : Node := .dict [.key "a" (some (.dict [] none)) none] none

def c7wRes : Node :=
  .dict [.key "a" (some (.dict
    [.key "b" (some (.dict [.intV 5 none] none)) none] none)) none] none

/-- C7 witness: inserting 5 at a.b into {a: {}} once yields a concrete tree
that a second identical insert leaves unchanged. -/
theorem c7_insert_idempotent_amended_witness :
    insertGo c7wRes (.intV 5 none) "a.b" = .ok c7wRes :=
  c7_insert_idempotent_amended c7wRoot (.intV 5 none) "a.b" c7wRes
    (by decide) (by decide) rfl
